import Mathlib

/-!
Verification of the SMALDA contract gateway (Rust) against its
natural-language specification, via a shallow embedding of the relevant
source code in Lean 4.

Embedded components (from `src/contract/src/`):
* `circuit_breaker.rs` — `CircuitBreaker` state machine (sequential model,
  plus an interleaving machine for the `before_request` CAS race);
* `stellar.rs` — `truncate_memo`, the `revoke_hash` memo composition, and
  the per-attempt classification inside `verify_hash`;
* `hash_validator.rs` — `HashValidator::normalize` / `validate_sha256`;
* `webhook_dispatcher.rs` — HMAC-SHA256 `sign` / `verify_signature`;
* `lib.rs` — `compute_transfer_hash`, `verify_document`, `record_transfer`.

Machine integers are modelled as `Nat` with explicit `% 2^w` where the
source can wrap (the `u32` atomic counters); Rust strings are `List Char`
with an explicit UTF-8 byte encoding where byte lengths matter; fallible
code returns `Except`/`Option`, and a Rust panic is `Option.none`.
-/

namespace SMALDA

/-! ## Circuit breaker (`circuit_breaker.rs`), sequential model

The Rust implementation keeps `state`, `failure_count`, `success_count`
and `opened_at` in atomics.  For the single-caller (sequential) claims the
compare-exchange in `before_request` always succeeds when reached, so the
methods are plain state transformers; the clock read `now_secs()` becomes
an explicit `now : Nat` argument. -/

/-- `CircuitState` from `circuit_breaker.rs`. -/
inductive CircuitState where
  | Closed
  | Open
  | HalfOpen
deriving DecidableEq, Repr

/-- `CircuitBreakerConfig` from `circuit_breaker.rs` (`u32`/`u64` fields). -/
structure CircuitBreakerConfig where
  failure_threshold : Nat
  success_threshold : Nat
  timeout_secs : Nat
deriving DecidableEq, Repr

/-- The mutable fields of `CircuitBreaker` plus its immutable config. -/
structure CircuitBreaker where
  state : CircuitState
  failure_count : Nat
  success_count : Nat
  opened_at : Nat
  config : CircuitBreakerConfig
deriving DecidableEq, Repr

/-- `CircuitBreaker::new`: initial state Closed, all counters 0. -/
def CircuitBreaker.new (config : CircuitBreakerConfig) : CircuitBreaker :=
  { state := .Closed
    failure_count := 0
    success_count := 0
    opened_at := 0
    config := config }

/-- `CircuitBreaker::trip`: record `opened_at = now`, go Open, zero both
counters. -/
def CircuitBreaker.trip (cb : CircuitBreaker) (now : Nat) : CircuitBreaker :=
  { cb with state := .Open, opened_at := now, failure_count := 0, success_count := 0 }

/-- `CircuitOpenError { remaining_secs }` or an allowed request. -/
inductive BeforeRequestResult where
  | allowed
  | rejected (remaining_secs : Nat)
deriving DecidableEq, Repr

/-- `CircuitBreaker::before_request`, sequential semantics: with a single
caller the `compare_exchange(OPEN, HALF_OPEN)` always succeeds when
reached, so the retry loop runs at most once.  `u64` saturating
subtraction is `Nat` subtraction. -/
def CircuitBreaker.beforeRequest (cb : CircuitBreaker) (now : Nat) :
    CircuitBreaker × BeforeRequestResult :=
  match cb.state with
  | .Closed => (cb, .allowed)
  | .Open =>
    let elapsed := now - cb.opened_at
    if cb.config.timeout_secs ≤ elapsed then
      ({ cb with state := .HalfOpen, success_count := 0 }, .allowed)
    else
      (cb, .rejected (cb.config.timeout_secs - elapsed))
  | .HalfOpen => (cb, .allowed)

/-- `CircuitBreaker::on_success`.  The `fetch_add(1)` on the `u32` counter
wraps at `2^32`. -/
def CircuitBreaker.onSuccess (cb : CircuitBreaker) : CircuitBreaker :=
  match cb.state with
  | .Closed => { cb with failure_count := 0 }
  | .HalfOpen =>
    let successes := (cb.success_count + 1) % 2 ^ 32
    if cb.config.success_threshold ≤ successes then
      { cb with state := .Closed, failure_count := 0, success_count := 0 }
    else
      { cb with success_count := successes }
  | .Open => cb

/-- `CircuitBreaker::on_failure`. -/
def CircuitBreaker.onFailure (cb : CircuitBreaker) (now : Nat) : CircuitBreaker :=
  match cb.state with
  | .Closed =>
    let failures := (cb.failure_count + 1) % 2 ^ 32
    let cb' := { cb with failure_count := failures }
    if cb.config.failure_threshold ≤ failures then cb'.trip now else cb'
  | .HalfOpen => cb.trip now
  | .Open => cb

/-- A sequence of consecutive `on_failure()` calls, each stamped with the
clock value `now_secs()` returned during that call. -/
def CircuitBreaker.runFailures (cb : CircuitBreaker) (times : List Nat) : CircuitBreaker :=
  times.foldl (fun c t => c.onFailure t) cb

/-- One completed sequential call against the breaker. -/
inductive CBOp where
  | beforeReq (now : Nat)
  | success
  | failure (now : Nat)
deriving DecidableEq, Repr

/-- Step of the sequential call model (the state after the call completes;
`before_request`'s return value is dropped). -/
def CircuitBreaker.stepOp (cb : CircuitBreaker) : CBOp → CircuitBreaker
  | .beforeReq now => (cb.beforeRequest now).1
  | .success => cb.onSuccess
  | .failure now => cb.onFailure now

/-- Run a sequence of completed calls from a starting breaker state. -/
def CircuitBreaker.runOps (cb : CircuitBreaker) (ops : List CBOp) : CircuitBreaker :=
  ops.foldl CircuitBreaker.stepOp cb

/-! ### Facts used by the circuit-breaker claims -/

/-- While strictly below the threshold, consecutive failures keep the
breaker Closed and count exactly. -/
theorem runFailures_below_threshold (cfg : CircuitBreakerConfig)
    (h32 : cfg.failure_threshold < 2 ^ 32) :
    ∀ (ts : List Nat) (cb : CircuitBreaker), cb.config = cfg →
      cb.state = .Closed →
      cb.failure_count + ts.length < cfg.failure_threshold →
      (cb.runFailures ts).state = .Closed ∧
        (cb.runFailures ts).failure_count = cb.failure_count + ts.length ∧
        (cb.runFailures ts).config = cfg ∧
        (cb.runFailures ts).success_count = cb.success_count ∧
        (cb.runFailures ts).opened_at = cb.opened_at := by
  intro ts
  induction ts with
  | nil =>
    intro cb hcfg hst _
    exact ⟨hst, by simp [CircuitBreaker.runFailures], hcfg, rfl, rfl⟩
  | cons t ts ih =>
    intro cb hcfg hst hlt
    simp only [List.length_cons] at hlt
    have hmod : (cb.failure_count + 1) % 2 ^ 32 = cb.failure_count + 1 := by
      apply Nat.mod_eq_of_lt
      omega
    have hnotrip : ¬ cfg.failure_threshold ≤ (cb.failure_count + 1) % 2 ^ 32 := by
      rw [hmod]; omega
    have hstep : cb.onFailure t =
        { cb with failure_count := (cb.failure_count + 1) % 2 ^ 32 } := by
      unfold CircuitBreaker.onFailure
      rw [hst]
      simp only [hcfg, if_neg hnotrip]
    have := ih { cb with failure_count := (cb.failure_count + 1) % 2 ^ 32 }
      (by simpa using hcfg) (by simp [hst]) (by rw [hmod]; simp at hlt ⊢; omega)
    simp only [CircuitBreaker.runFailures, List.foldl_cons] at *
    rw [hstep]
    refine ⟨this.1, ?_, this.2.2⟩
    rw [this.2.1, hmod]
    simp at hlt ⊢
    omega

/-- C1: for every configured failure threshold `F ≥ 1`, starting Closed
with failure counter 0, `F - 1` consecutive `on_failure()` calls leave the
breaker Closed, and the `F`-th trips it: the state becomes Open,
`opened_at` records the tripping call's clock value, and both counters are
reset to 0. -/
theorem circuit_opens_at_failure_threshold (cfg : CircuitBreakerConfig)
    (hF : 1 ≤ cfg.failure_threshold) (h32 : cfg.failure_threshold < 2 ^ 32)
    (ts : List Nat) (tlast : Nat) (hlen : ts.length = cfg.failure_threshold - 1) :
    ((CircuitBreaker.new cfg).runFailures ts).state = .Closed ∧
    (((CircuitBreaker.new cfg).runFailures (ts ++ [tlast])).state = .Open ∧
      ((CircuitBreaker.new cfg).runFailures (ts ++ [tlast])).opened_at = tlast ∧
      ((CircuitBreaker.new cfg).runFailures (ts ++ [tlast])).failure_count = 0 ∧
      ((CircuitBreaker.new cfg).runFailures (ts ++ [tlast])).success_count = 0) := by
  have hbelow := runFailures_below_threshold cfg h32 ts (CircuitBreaker.new cfg)
    rfl rfl (by simp [CircuitBreaker.new, hlen]; omega)
  obtain ⟨hst, hfc, hcfg', _, _⟩ := hbelow
  refine ⟨hst, ?_⟩
  have happ : (CircuitBreaker.new cfg).runFailures (ts ++ [tlast]) =
      ((CircuitBreaker.new cfg).runFailures ts).onFailure tlast := by
    simp [CircuitBreaker.runFailures]
  set mid := (CircuitBreaker.new cfg).runFailures ts with hmid
  have hmc : mid.failure_count = cfg.failure_threshold - 1 := by
    rw [hfc, hlen]; simp [CircuitBreaker.new]
  have hmod : (mid.failure_count + 1) % 2 ^ 32 = mid.failure_count + 1 := by
    apply Nat.mod_eq_of_lt; omega
  have htrip : cfg.failure_threshold ≤ (mid.failure_count + 1) % 2 ^ 32 := by
    rw [hmod, hmc]; omega
  have hstep : mid.onFailure tlast =
      CircuitBreaker.trip { mid with failure_count := (mid.failure_count + 1) % 2 ^ 32 } tlast := by
    unfold CircuitBreaker.onFailure
    rw [hst]
    simp only [hcfg', if_pos htrip]
  rw [happ, hstep]
  simp [CircuitBreaker.trip]

/-- Witness for C1 at `failure_threshold = 3`. -/
theorem circuit_opens_at_failure_threshold_witness :
    (((CircuitBreaker.new ⟨3, 2, 30⟩).runFailures [10, 11]).state = .Closed ∧
      (((CircuitBreaker.new ⟨3, 2, 30⟩).runFailures ([10, 11] ++ [12])).state = .Open ∧
        ((CircuitBreaker.new ⟨3, 2, 30⟩).runFailures ([10, 11] ++ [12])).opened_at = 12 ∧
        ((CircuitBreaker.new ⟨3, 2, 30⟩).runFailures ([10, 11] ++ [12])).failure_count = 0 ∧
        ((CircuitBreaker.new ⟨3, 2, 30⟩).runFailures ([10, 11] ++ [12])).success_count = 0)) :=
  circuit_opens_at_failure_threshold ⟨3, 2, 30⟩ (by decide) (by decide)
    [10, 11] 12 (by decide)

/-- The inductive invariant behind C8: the config is immutable and a
Closed breaker's failure counter is strictly below the threshold. -/
theorem stepOp_preserves_closed_inv (cfg : CircuitBreakerConfig)
    (hF : 1 ≤ cfg.failure_threshold) (c : CircuitBreaker) (op : CBOp)
    (hcfg : c.config = cfg)
    (hinv : c.state = .Closed → c.failure_count < cfg.failure_threshold) :
    (c.stepOp op).config = cfg ∧
      ((c.stepOp op).state = .Closed →
        (c.stepOp op).failure_count < cfg.failure_threshold) := by
  cases op with
  | beforeReq now =>
    cases hcs : c.state with
    | Closed =>
      simp [CircuitBreaker.stepOp, CircuitBreaker.beforeRequest, hcs, hcfg, hinv hcs]
    | Open =>
      simp only [CircuitBreaker.stepOp, CircuitBreaker.beforeRequest, hcs]
      split <;> simp [hcfg, hcs]
    | HalfOpen =>
      simp [CircuitBreaker.stepOp, CircuitBreaker.beforeRequest, hcs, hcfg]
  | success =>
    cases hcs : c.state with
    | Closed =>
      simp [CircuitBreaker.stepOp, CircuitBreaker.onSuccess, hcs, hcfg]
      omega
    | Open =>
      simp [CircuitBreaker.stepOp, CircuitBreaker.onSuccess, hcs, hcfg]
    | HalfOpen =>
      simp only [CircuitBreaker.stepOp, CircuitBreaker.onSuccess, hcs]
      split <;> simp [hcfg, hcs] <;> omega
  | failure now =>
    cases hcs : c.state with
    | Closed =>
      simp only [CircuitBreaker.stepOp, CircuitBreaker.onFailure, hcs]
      split
      · simp [CircuitBreaker.trip, hcfg]
      · rename_i h
        refine ⟨hcfg, fun _ => ?_⟩
        simp only [hcfg] at h
        show (c.failure_count + 1) % 2 ^ 32 < cfg.failure_threshold
        omega
    | Open =>
      simp [CircuitBreaker.stepOp, CircuitBreaker.onFailure, hcs, hcfg, hinv]
    | HalfOpen =>
      simp [CircuitBreaker.stepOp, CircuitBreaker.onFailure, hcs, hcfg,
        CircuitBreaker.trip]

/-- The closed-state invariant holds in every reachable state. -/
theorem runOps_closed_inv (cfg : CircuitBreakerConfig)
    (hF : 1 ≤ cfg.failure_threshold) (ops : List CBOp) :
    ((CircuitBreaker.new cfg).runOps ops).config = cfg ∧
      (((CircuitBreaker.new cfg).runOps ops).state = .Closed →
        ((CircuitBreaker.new cfg).runOps ops).failure_count < cfg.failure_threshold) := by
  suffices h : ∀ (ops : List CBOp) (c : CircuitBreaker), c.config = cfg →
      (c.state = .Closed → c.failure_count < cfg.failure_threshold) →
      (c.runOps ops).config = cfg ∧
        ((c.runOps ops).state = .Closed →
          (c.runOps ops).failure_count < cfg.failure_threshold) by
    exact h ops (CircuitBreaker.new cfg) rfl (fun _ => by simpa [CircuitBreaker.new] using hF)
  intro ops
  induction ops with
  | nil => intro c hcfg hinv; exact ⟨hcfg, hinv⟩
  | cons op ops ih =>
    intro c hcfg hinv
    have hstep := stepOp_preserves_closed_inv cfg hF c op hcfg hinv
    simpa [CircuitBreaker.runOps, List.foldl_cons] using
      ih (c.stepOp op) hstep.1 hstep.2

/-- A single step never enters Open, or enters Closed from HalfOpen,
without both counters being reset to 0. -/
theorem stepOp_transition_resets (c : CircuitBreaker) (op : CBOp) :
    ((c.state ≠ .Open → (c.stepOp op).state = .Open →
        (c.stepOp op).failure_count = 0 ∧ (c.stepOp op).success_count = 0) ∧
      (c.state = .HalfOpen → (c.stepOp op).state = .Closed →
        (c.stepOp op).failure_count = 0 ∧ (c.stepOp op).success_count = 0)) := by
  cases op with
  | beforeReq now =>
    cases hcs : c.state with
    | Closed => simp [CircuitBreaker.stepOp, CircuitBreaker.beforeRequest, hcs]
    | Open =>
      simp only [CircuitBreaker.stepOp, CircuitBreaker.beforeRequest, hcs]
      split <;> simp [hcs]
    | HalfOpen => simp [CircuitBreaker.stepOp, CircuitBreaker.beforeRequest, hcs]
  | success =>
    cases hcs : c.state with
    | Closed => simp [CircuitBreaker.stepOp, CircuitBreaker.onSuccess, hcs]
    | Open => simp [CircuitBreaker.stepOp, CircuitBreaker.onSuccess, hcs]
    | HalfOpen =>
      simp only [CircuitBreaker.stepOp, CircuitBreaker.onSuccess, hcs]
      split <;> simp [hcs]
  | failure now =>
    cases hcs : c.state with
    | Closed =>
      simp only [CircuitBreaker.stepOp, CircuitBreaker.onFailure, hcs]
      split <;> simp [hcs, CircuitBreaker.trip]
    | Open => simp [CircuitBreaker.stepOp, CircuitBreaker.onFailure, hcs]
    | HalfOpen =>
      simp [CircuitBreaker.stepOp, CircuitBreaker.onFailure, hcs, CircuitBreaker.trip]

/-- C8: along any sequence of completed `before_request`/`on_success`/
`on_failure` calls from the initial Closed state (with
`failure_threshold ≥ 1`), whenever the breaker is Closed its failure
counter is strictly below the threshold, and any step that transitions
into Open, or from HalfOpen into Closed, leaves both counters at 0. -/
theorem circuit_breaker_counter_invariant (cfg : CircuitBreakerConfig)
    (hF : 1 ≤ cfg.failure_threshold) (ops : List CBOp) (op : CBOp) :
    (((CircuitBreaker.new cfg).runOps ops).state = .Closed →
      ((CircuitBreaker.new cfg).runOps ops).failure_count < cfg.failure_threshold) ∧
    ((((CircuitBreaker.new cfg).runOps ops).state ≠ .Open →
        (((CircuitBreaker.new cfg).runOps ops).stepOp op).state = .Open →
        (((CircuitBreaker.new cfg).runOps ops).stepOp op).failure_count = 0 ∧
          (((CircuitBreaker.new cfg).runOps ops).stepOp op).success_count = 0) ∧
      (((CircuitBreaker.new cfg).runOps ops).state = .HalfOpen →
        (((CircuitBreaker.new cfg).runOps ops).stepOp op).state = .Closed →
        (((CircuitBreaker.new cfg).runOps ops).stepOp op).failure_count = 0 ∧
          (((CircuitBreaker.new cfg).runOps ops).stepOp op).success_count = 0)) :=
  ⟨(runOps_closed_inv cfg hF ops).2,
    stepOp_transition_resets ((CircuitBreaker.new cfg).runOps ops) op⟩

/-- Witness for C8 at `failure_threshold = 2` with a short call history. -/
theorem circuit_breaker_counter_invariant_witness :
    1 ≤ (2 : Nat) ∧
    (((CircuitBreaker.new ⟨2, 1, 5⟩).runOps
        [CBOp.beforeReq 0, CBOp.failure 1]).state = CircuitState.Closed →
      ((CircuitBreaker.new ⟨2, 1, 5⟩).runOps
        [CBOp.beforeReq 0, CBOp.failure 1]).failure_count < 2) :=
  ⟨by decide,
    (circuit_breaker_counter_invariant ⟨2, 1, 5⟩ (by decide)
      [CBOp.beforeReq 0, CBOp.failure 1] CBOp.success).1⟩

/-! ## `before_request` under concurrency (C2)

The Open→HalfOpen race in `before_request` is modelled as an interleaving
machine: each caller is a thread whose program counter walks through the
atomic shared-memory accesses of the Rust loop (load `state`; load
`opened_at` and compare against the clock; `compare_exchange` on `state`;
store `success_count`).  The clock value `now_secs()` is held fixed for
the duration of the race window.  The `won` flag is ghost state recording
which thread's `compare_exchange` succeeded. -/

/-- Program counter inside one `before_request` call. -/
inductive ThreadPhase where
  /-- loop head: about to `load` the state. -/
  | start
  /-- loaded Open: about to load `opened_at` and compare the elapsed time. -/
  | checkTimeout
  /-- timeout elapsed: about to `compare_exchange(OPEN, HALF_OPEN)`. -/
  | casState
  /-- won the compare-exchange: about to store `success_count := 0`. -/
  | resetSuccess
  /-- the call returned. -/
  | finished (r : BeforeRequestResult)
deriving DecidableEq, Repr

/-- One concurrent caller: program counter plus the ghost winner flag. -/
structure RaceThread where
  phase : ThreadPhase
  won : Bool
deriving DecidableEq, Repr

/-- Shared breaker state plus all concurrent callers. -/
structure RaceSystem where
  breaker : CircuitBreaker
  threads : List RaceThread
deriving DecidableEq, Repr

/-- One atomic step of one caller, following `before_request` in
`circuit_breaker.rs` line by line. -/
def stepRaceThread (now : Nat) (cb : CircuitBreaker) (t : RaceThread) :
    CircuitBreaker × RaceThread :=
  match t.phase with
  | .start =>
    match cb.state with
    | .Closed => (cb, { t with phase := .finished .allowed })
    | .HalfOpen => (cb, { t with phase := .finished .allowed })
    | .Open => (cb, { t with phase := .checkTimeout })
  | .checkTimeout =>
    let elapsed := now - cb.opened_at
    if cb.config.timeout_secs ≤ elapsed then
      (cb, { t with phase := .casState })
    else
      (cb, { t with phase := .finished (.rejected (cb.config.timeout_secs - elapsed)) })
  | .casState =>
    if cb.state = .Open then
      ({ cb with state := .HalfOpen }, { t with phase := .resetSuccess, won := true })
    else
      (cb, { t with phase := .start })
  | .resetSuccess =>
    ({ cb with success_count := 0 }, { t with phase := .finished .allowed })
  | .finished _ => (cb, t)

/-- Scheduler step: run one atomic action of thread `i` (no-op for an
out-of-range index). -/
def stepRace (now : Nat) (sys : RaceSystem) (i : Nat) : RaceSystem :=
  match sys.threads[i]? with
  | some t =>
    let s := stepRaceThread now sys.breaker t
    { breaker := s.1, threads := sys.threads.set i s.2 }
  | none => sys

/-- Run an arbitrary interleaving, given as the list of thread indices in
execution order. -/
def execRace (now : Nat) (sys : RaceSystem) (schedule : List Nat) : RaceSystem :=
  schedule.foldl (stepRace now) sys

/-- A caller whose `before_request` call has returned. -/
def RaceThread.isFinished (t : RaceThread) : Bool :=
  match t.phase with
  | .finished _ => true
  | _ => false

/-- Starting configuration of the race: breaker Open since `t0`, `n`
callers all about to enter `before_request`. -/
def raceInit (cfg : CircuitBreakerConfig) (t0 fc0 sc0 n : Nat) : RaceSystem :=
  { breaker := { state := .Open, failure_count := fc0, success_count := sc0,
                 opened_at := t0, config := cfg }
    threads := List.replicate n { phase := .start, won := false } }

/-- Phases strictly before a successful compare-exchange. -/
def preCas (p : ThreadPhase) : Prop :=
  p = .start ∨ p = .checkTimeout ∨ p = .casState

/-- Inductive invariant of the race: before the transition the breaker is
Open and nobody has won or finished; after it the breaker is HalfOpen,
exactly one thread holds the ghost winner flag, every finished call was
allowed, and the winner's pending `success_count := 0` store is the only
thing that can still precede a zero success counter. -/
def RaceInv (cfg : CircuitBreakerConfig) (t0 : Nat) (sys : RaceSystem) : Prop :=
  sys.breaker.config = cfg ∧ sys.breaker.opened_at = t0 ∧
  ((sys.breaker.state = .Open ∧
      ∀ t ∈ sys.threads, t.won = false ∧ preCas t.phase) ∨
   (sys.breaker.state = .HalfOpen ∧
      sys.threads.countP (fun t => t.won) = 1 ∧
      (∀ t ∈ sys.threads,
        (t.won = true → t.phase = .resetSuccess ∨ t.phase = .finished .allowed) ∧
        (t.won = false → preCas t.phase ∨ t.phase = .finished .allowed)) ∧
      ((∃ u ∈ sys.threads, u.won = true ∧ u.phase = .resetSuccess) ∨
        sys.breaker.success_count = 0)))

/-- Setting an element of a list whose members all fail `p` leaves the
`countP` determined by the new element alone. -/
theorem countP_set_all_false {α : Type} (p : α → Bool) :
    ∀ (l : List α) (i : Nat) (a : α),
      (∀ t ∈ l, p t = false) → i < l.length →
      (l.set i a).countP p = if p a then 1 else 0 := by
  intro l
  induction l with
  | nil => intro i a _ h; simp at h
  | cons x xs ih =>
    intro i a hall hlen
    cases i with
    | zero =>
      have hxs : xs.countP p = 0 :=
        List.countP_eq_zero.mpr (by intro t ht; simp [hall t (List.mem_cons_of_mem _ ht)])
      simp [List.countP_cons, hxs]
    | succ n =>
      have hx : p x = false := hall x (List.mem_cons_self _ _)
      have := ih n a (fun t ht => hall t (List.mem_cons_of_mem _ ht))
        (by simpa using Nat.lt_of_succ_lt_succ hlen)
      simp [List.countP_cons, this, hx]

/-- Replacing an element by one with the same `p`-value preserves
`countP`. -/
theorem countP_set_congr {α : Type} (p : α → Bool) :
    ∀ (l : List α) (i : Nat) (a b : α), l[i]? = some b → p a = p b →
      (l.set i a).countP p = l.countP p := by
  intro l
  induction l with
  | nil => intro i a b h _; simp at h
  | cons x xs ih =>
    intro i a b h hp
    cases i with
    | zero =>
      simp only [List.getElem?_cons_zero, Option.some.injEq] at h
      subst h
      simp [List.countP_cons, hp]
    | succ n =>
      simp only [List.getElem?_cons_succ] at h
      simp [List.countP_cons, ih n a b h hp]

/-- An element different from the replaced one stays in the list after
`set`. -/
theorem mem_set_of_ne {α : Type} {l : List α} {u t : α} {i : Nat} (a : α)
    (hu : u ∈ l) (hget : l[i]? = some t) (hne : u ≠ t) : u ∈ l.set i a := by
  obtain ⟨j, hj, hju⟩ := List.mem_iff_getElem.mp hu
  have hij : i ≠ j := by
    rintro rfl
    exact hne (hju ▸ (List.getElem?_eq_some.mp hget).2.symm ▸ rfl)
  refine List.mem_iff_getElem.mpr ⟨j, by simpa using hj, ?_⟩
  rw [List.getElem_set_ne hij]
  exact hju

/-- A pending winner store survives a step of any thread that is not the
pending winner. -/
theorem pending_winner_set {L : List RaceThread} {i : Nat} {t : RaceThread}
    (a : RaceThread) (hget : L[i]? = some t)
    (hne : ∀ u : RaceThread, u.won = true → u.phase = .resetSuccess → u ≠ t) :
    (∃ u ∈ L, u.won = true ∧ u.phase = .resetSuccess) →
    ∃ u ∈ L.set i a, u.won = true ∧ u.phase = .resetSuccess := by
  rintro ⟨u, hu, hw, hp⟩
  exact ⟨u, mem_set_of_ne a hu hget (hne u hw hp), hw, hp⟩

set_option maxHeartbeats 1000000 in
/-- One scheduler step preserves the race invariant, provided the fixed
clock shows the timeout elapsed. -/
theorem stepRace_preserves_inv (cfg : CircuitBreakerConfig) (now t0 : Nat)
    (htime : cfg.timeout_secs ≤ now - t0) (sys : RaceSystem) (i : Nat)
    (hinv : RaceInv cfg t0 sys) : RaceInv cfg t0 (stepRace now sys i) := by
  obtain ⟨hcfg, hopen, hcase⟩ := hinv
  cases hget : sys.threads[i]? with
  | none =>
    have hstep : stepRace now sys i = sys := by
      simp only [stepRace, hget]
    rw [hstep]
    exact ⟨hcfg, hopen, hcase⟩
  | some t =>
    obtain ⟨tp, twon⟩ := t
    have hmem : (⟨tp, twon⟩ : RaceThread) ∈ sys.threads := List.getElem?_mem hget
    have hlen : i < sys.threads.length := (List.getElem?_eq_some.mp hget).1
    have hstep : stepRace now sys i =
        { breaker := (stepRaceThread now sys.breaker ⟨tp, twon⟩).1,
          threads := sys.threads.set i (stepRaceThread now sys.breaker ⟨tp, twon⟩).2 } := by
      simp only [stepRace, hget]
    rw [hstep]
    rcases hcase with ⟨hst, hall⟩ | ⟨hst, hcount, hall, hpend⟩
    · -- breaker Open: the stepped thread is pre-CAS and has not won
      obtain ⟨hwon, hpre⟩ := hall _ hmem
      simp only at hwon
      subst hwon
      cases tp with
      | start =>
        have hb : (stepRaceThread now sys.breaker ⟨.start, false⟩).1 = sys.breaker := by
          simp [stepRaceThread, hst]
        have ht : (stepRaceThread now sys.breaker ⟨.start, false⟩).2 =
            ⟨.checkTimeout, false⟩ := by
          simp [stepRaceThread, hst]
        rw [hb, ht]
        refine ⟨hcfg, hopen, Or.inl ⟨hst, ?_⟩⟩
        intro u hu
        rcases List.mem_or_eq_of_mem_set hu with hu | hu
        · exact hall u hu
        · subst hu; exact ⟨rfl, Or.inr (Or.inl rfl)⟩
      | checkTimeout =>
        have helapsed : sys.breaker.config.timeout_secs ≤ now - sys.breaker.opened_at := by
          rw [hopen, hcfg]; exact htime
        have hb : (stepRaceThread now sys.breaker ⟨.checkTimeout, false⟩).1 = sys.breaker := by
          simp [stepRaceThread, if_pos helapsed]
        have ht : (stepRaceThread now sys.breaker ⟨.checkTimeout, false⟩).2 =
            ⟨.casState, false⟩ := by
          simp [stepRaceThread, if_pos helapsed]
        rw [hb, ht]
        refine ⟨hcfg, hopen, Or.inl ⟨hst, ?_⟩⟩
        intro u hu
        rcases List.mem_or_eq_of_mem_set hu with hu | hu
        · exact hall u hu
        · subst hu; exact ⟨rfl, Or.inr (Or.inr rfl)⟩
      | casState =>
        have hb : (stepRaceThread now sys.breaker ⟨.casState, false⟩).1 =
            { sys.breaker with state := .HalfOpen } := by
          simp [stepRaceThread, if_pos hst]
        have ht : (stepRaceThread now sys.breaker ⟨.casState, false⟩).2 =
            ⟨.resetSuccess, true⟩ := by
          simp [stepRaceThread, if_pos hst]
        rw [hb, ht]
        refine ⟨by simpa using hcfg, by simpa using hopen, Or.inr ⟨rfl, ?_, ?_, ?_⟩⟩
        · rw [countP_set_all_false _ sys.threads i _ (fun u hu => (hall u hu).1) hlen]
          simp
        · intro u hu
          rcases List.mem_or_eq_of_mem_set hu with hu | hu
          · obtain ⟨hw, hpr⟩ := hall u hu
            exact ⟨by simp [hw], fun _ => Or.inl hpr⟩
          · subst hu
            exact ⟨fun _ => Or.inl rfl, by simp⟩
        · exact Or.inl ⟨_, List.mem_set sys.threads i hlen _, rfl, rfl⟩
      | resetSuccess =>
        rcases hpre with hp | hp | hp <;> simp [preCas] at hp
      | finished r =>
        rcases hpre with hp | hp | hp <;> simp [preCas] at hp
    · -- breaker HalfOpen
      obtain ⟨hwinner, hloser⟩ := hall _ hmem
      cases twon with
      | true =>
        have hpre := hwinner rfl
        simp only at hpre
        cases tp with
        | resetSuccess =>
          -- the winner stores success_count := 0 and returns allowed
          have hb : (stepRaceThread now sys.breaker ⟨.resetSuccess, true⟩).1 =
              { sys.breaker with success_count := 0 } := by
            simp [stepRaceThread]
          have ht : (stepRaceThread now sys.breaker ⟨.resetSuccess, true⟩).2 =
              ⟨.finished .allowed, true⟩ := by
            simp [stepRaceThread]
          rw [hb, ht]
          refine ⟨by simpa using hcfg, by simpa using hopen,
            Or.inr ⟨by simpa using hst, ?_, ?_, Or.inr rfl⟩⟩
          · rw [countP_set_congr (fun t : RaceThread => t.won) sys.threads i ⟨.finished .allowed, true⟩ ⟨.resetSuccess, true⟩ hget rfl]
            exact hcount
          · intro u hu
            rcases List.mem_or_eq_of_mem_set hu with hu | hu
            · exact hall u hu
            · subst hu; exact ⟨fun _ => Or.inr rfl, by simp⟩
        | finished r =>
          -- the winner has already returned: its step is a no-op
          have hr : r = BeforeRequestResult.allowed := by
            rcases hpre with hp | hp
            · simp at hp
            · simpa using hp
          subst hr
          have hb : (stepRaceThread now sys.breaker ⟨.finished .allowed, true⟩).1 =
              sys.breaker := by
            simp [stepRaceThread]
          have ht : (stepRaceThread now sys.breaker ⟨.finished .allowed, true⟩).2 =
              ⟨.finished .allowed, true⟩ := by
            simp [stepRaceThread]
          rw [hb, ht]
          refine ⟨hcfg, hopen, Or.inr ⟨hst, ?_, ?_, ?_⟩⟩
          · rw [countP_set_congr (fun t : RaceThread => t.won) sys.threads i _ _ hget rfl]
            exact hcount
          · intro u hu
            rcases List.mem_or_eq_of_mem_set hu with hu | hu
            · exact hall u hu
            · subst hu; exact hall _ hmem
          · rcases hpend with hpw | hsc0
            · refine Or.inl (pending_winner_set _ hget ?_ hpw)
              intro u _ hup hut
              rw [hut] at hup
              simp at hup
            · exact Or.inr hsc0
        | start => rcases hpre with hp | hp <;> simp at hp
        | checkTimeout => rcases hpre with hp | hp <;> simp at hp
        | casState => rcases hpre with hp | hp <;> simp at hp
      | false =>
        have hpendne : ∀ u : RaceThread, u.won = true → u.phase = .resetSuccess →
            u ≠ (⟨tp, false⟩ : RaceThread) := by
          intro u huw _ hut
          rw [hut] at huw
          simp at huw
        have hpre := hloser rfl
        cases tp with
        | start =>
          -- loser back at the loop head: loads HalfOpen, returns allowed
          have hb : (stepRaceThread now sys.breaker ⟨.start, false⟩).1 = sys.breaker := by
            simp [stepRaceThread, hst]
          have ht : (stepRaceThread now sys.breaker ⟨.start, false⟩).2 =
              ⟨.finished .allowed, false⟩ := by
            simp [stepRaceThread, hst]
          rw [hb, ht]
          refine ⟨hcfg, hopen, Or.inr ⟨hst, ?_, ?_, ?_⟩⟩
          · rw [countP_set_congr (fun t : RaceThread => t.won) sys.threads i ⟨.finished .allowed, false⟩ ⟨.start, false⟩ hget rfl]
            exact hcount
          · intro u hu
            rcases List.mem_or_eq_of_mem_set hu with hu | hu
            · exact hall u hu
            · subst hu; exact ⟨by simp, fun _ => Or.inr rfl⟩
          · rcases hpend with hpw | hsc0
            · exact Or.inl (pending_winner_set _ hget hpendne hpw)
            · exact Or.inr hsc0
        | checkTimeout =>
          -- loser re-checking the timeout: still elapsed, so back to the CAS
          have helapsed : sys.breaker.config.timeout_secs ≤ now - sys.breaker.opened_at := by
            rw [hopen, hcfg]; exact htime
          have hb : (stepRaceThread now sys.breaker ⟨.checkTimeout, false⟩).1 =
              sys.breaker := by
            simp [stepRaceThread, if_pos helapsed]
          have ht : (stepRaceThread now sys.breaker ⟨.checkTimeout, false⟩).2 =
              ⟨.casState, false⟩ := by
            simp [stepRaceThread, if_pos helapsed]
          rw [hb, ht]
          refine ⟨hcfg, hopen, Or.inr ⟨hst, ?_, ?_, ?_⟩⟩
          · rw [countP_set_congr (fun t : RaceThread => t.won) sys.threads i ⟨.casState, false⟩ ⟨.checkTimeout, false⟩ hget rfl]
            exact hcount
          · intro u hu
            rcases List.mem_or_eq_of_mem_set hu with hu | hu
            · exact hall u hu
            · subst hu; exact ⟨by simp, fun _ => Or.inl (Or.inr (Or.inr rfl))⟩
          · rcases hpend with hpw | hsc0
            · exact Or.inl (pending_winner_set _ hget hpendne hpw)
            · exact Or.inr hsc0
        | casState =>
          -- loser compare-exchange fails against HalfOpen, back to loop head
          have hno : ¬ sys.breaker.state = CircuitState.Open := by
            rw [hst]; simp
          have hb : (stepRaceThread now sys.breaker ⟨.casState, false⟩).1 =
              sys.breaker := by
            simp [stepRaceThread, hno]
          have ht : (stepRaceThread now sys.breaker ⟨.casState, false⟩).2 =
              ⟨.start, false⟩ := by
            simp [stepRaceThread, hno]
          rw [hb, ht]
          refine ⟨hcfg, hopen, Or.inr ⟨hst, ?_, ?_, ?_⟩⟩
          · rw [countP_set_congr (fun t : RaceThread => t.won) sys.threads i ⟨.start, false⟩ ⟨.casState, false⟩ hget rfl]
            exact hcount
          · intro u hu
            rcases List.mem_or_eq_of_mem_set hu with hu | hu
            · exact hall u hu
            · subst hu; exact ⟨by simp, fun _ => Or.inl (Or.inl rfl)⟩
          · rcases hpend with hpw | hsc0
            · exact Or.inl (pending_winner_set _ hget hpendne hpw)
            · exact Or.inr hsc0
        | finished r =>
          -- loser already finished: no-op
          have hb : (stepRaceThread now sys.breaker ⟨.finished r, false⟩).1 =
              sys.breaker := by
            simp [stepRaceThread]
          have ht : (stepRaceThread now sys.breaker ⟨.finished r, false⟩).2 =
              ⟨.finished r, false⟩ := by
            simp [stepRaceThread]
          rw [hb, ht]
          refine ⟨hcfg, hopen, Or.inr ⟨hst, ?_, ?_, ?_⟩⟩
          · rw [countP_set_congr (fun t : RaceThread => t.won) sys.threads i _ _ hget rfl]
            exact hcount
          · intro u hu
            rcases List.mem_or_eq_of_mem_set hu with hu | hu
            · exact hall u hu
            · subst hu; exact hall _ hmem
          · rcases hpend with hpw | hsc0
            · exact Or.inl (pending_winner_set _ hget hpendne hpw)
            · exact Or.inr hsc0
        | resetSuccess =>
          rcases hpre with (hp | hp | hp) | hp <;> simp [preCas] at hp

/-- A scheduler step never changes the number of callers. -/
theorem stepRace_length (now : Nat) (sys : RaceSystem) (i : Nat) :
    (stepRace now sys i).threads.length = sys.threads.length := by
  cases hget : sys.threads[i]? with
  | none => simp [stepRace, hget]
  | some t => simp [stepRace, hget]

/-- Interleavings never change the number of callers. -/
theorem execRace_length (now : Nat) :
    ∀ (schedule : List Nat) (sys : RaceSystem),
      (execRace now sys schedule).threads.length = sys.threads.length := by
  intro schedule
  induction schedule with
  | nil => intro sys; rfl
  | cons i rest ih =>
    intro sys
    simp only [execRace, List.foldl_cons] at *
    rw [ih (stepRace now sys i), stepRace_length]

/-- The race invariant holds along every interleaving. -/
theorem execRace_preserves_inv (cfg : CircuitBreakerConfig) (now t0 : Nat)
    (htime : cfg.timeout_secs ≤ now - t0) :
    ∀ (schedule : List Nat) (sys : RaceSystem), RaceInv cfg t0 sys →
      RaceInv cfg t0 (execRace now sys schedule) := by
  intro schedule
  induction schedule with
  | nil => intro sys h; exact h
  | cons i rest ih =>
    intro sys h
    simp only [execRace, List.foldl_cons] at *
    exact ih (stepRace now sys i) (stepRace_preserves_inv cfg now t0 htime sys i h)

/-- The starting configuration satisfies the race invariant. -/
theorem raceInit_inv (cfg : CircuitBreakerConfig) (t0 fc0 sc0 n : Nat) :
    RaceInv cfg t0 (raceInit cfg t0 fc0 sc0 n) := by
  refine ⟨rfl, rfl, Or.inl ⟨rfl, ?_⟩⟩
  intro t ht
  have := List.eq_of_mem_replicate ht
  subst this
  exact ⟨rfl, Or.inl rfl⟩

/-- C2 (amended): when the breaker has been Open for at least the timeout,
any complete interleaving of `n ≥ 1` concurrent `before_request` callers
performs the Open→HalfOpen transition exactly once (exactly one caller's
compare-exchange succeeds, and that winner resets the success counter to
0), the final state every caller observes is HalfOpen — and the losers of
the race loop, observe HalfOpen and are also allowed through rather than
denied. -/
theorem before_request_race_exactly_one_transition
    (cfg : CircuitBreakerConfig) (now t0 fc0 sc0 n : Nat) (schedule : List Nat)
    (htime : cfg.timeout_secs ≤ now - t0) (hn : 0 < n)
    (hfin : ((execRace now (raceInit cfg t0 fc0 sc0 n) schedule).threads.all
        RaceThread.isFinished) = true) :
    (execRace now (raceInit cfg t0 fc0 sc0 n) schedule).breaker.state = .HalfOpen ∧
    (execRace now (raceInit cfg t0 fc0 sc0 n) schedule).threads.countP
        (fun t => t.won) = 1 ∧
    (∀ t ∈ (execRace now (raceInit cfg t0 fc0 sc0 n) schedule).threads,
      t.phase = .finished .allowed) ∧
    (execRace now (raceInit cfg t0 fc0 sc0 n) schedule).breaker.success_count = 0 := by
  have hinv := execRace_preserves_inv cfg now t0 htime schedule _
    (raceInit_inv cfg t0 fc0 sc0 n)
  have hlen : (execRace now (raceInit cfg t0 fc0 sc0 n) schedule).threads.length = n := by
    rw [execRace_length]
    simp [raceInit]
  obtain ⟨_, _, hcase⟩ := hinv
  have hne : (execRace now (raceInit cfg t0 fc0 sc0 n) schedule).threads ≠ [] := by
    intro h
    rw [h] at hlen
    simp at hlen
    omega
  obtain ⟨t, ht⟩ := List.exists_mem_of_ne_nil _ hne
  rcases hcase with ⟨hst, hall⟩ | ⟨hst, hcount, hall, hpend⟩
  · -- impossible: while Open no caller can have finished
    exfalso
    have hfint := List.all_eq_true.mp hfin t ht
    rcases (hall t ht).2 with hp | hp | hp <;>
      simp [RaceThread.isFinished, hp] at hfint
  · refine ⟨hst, hcount, ?_, ?_⟩
    · intro u hu
      have hfinu := List.all_eq_true.mp hfin u hu
      cases hw : u.won with
      | true =>
        rcases (hall u hu).1 hw with hp | hp
        · simp [RaceThread.isFinished, hp] at hfinu
        · exact hp
      | false =>
        rcases (hall u hu).2 hw with (hp | hp | hp) | hp
        · simp [RaceThread.isFinished, hp] at hfinu
        · simp [RaceThread.isFinished, hp] at hfinu
        · simp [RaceThread.isFinished, hp] at hfinu
        · exact hp
    · rcases hpend with ⟨u, hu, _, hup⟩ | hsc0
      · have hfinu := List.all_eq_true.mp hfin u hu
        simp [RaceThread.isFinished, hup] at hfinu
      · exact hsc0

/-- Witness for the amended C2: one caller, breaker Open past its timeout,
run to completion. -/
theorem before_request_race_exactly_one_transition_witness :
    (⟨3, 2, 5⟩ : CircuitBreakerConfig).timeout_secs ≤ 10 - 0 ∧ 0 < 1 ∧
    ((execRace 10 (raceInit ⟨3, 2, 5⟩ 0 0 7 1) [0, 0, 0, 0]).threads.all
        RaceThread.isFinished) = true ∧
    ((execRace 10 (raceInit ⟨3, 2, 5⟩ 0 0 7 1) [0, 0, 0, 0]).breaker.state = .HalfOpen ∧
      (execRace 10 (raceInit ⟨3, 2, 5⟩ 0 0 7 1) [0, 0, 0, 0]).threads.countP
          (fun t => t.won) = 1 ∧
      (∀ t ∈ (execRace 10 (raceInit ⟨3, 2, 5⟩ 0 0 7 1) [0, 0, 0, 0]).threads,
        t.phase = .finished .allowed) ∧
      (execRace 10 (raceInit ⟨3, 2, 5⟩ 0 0 7 1) [0, 0, 0, 0]).breaker.success_count = 0) :=
  ⟨by decide, by decide, by decide,
    before_request_race_exactly_one_transition ⟨3, 2, 5⟩ 10 0 0 7 1 [0, 0, 0, 0]
      (by decide) (by decide) (by decide)⟩

/-- Counterexample to C2 as stated: in a two-caller race where thread 0
wins the compare-exchange, the losing thread 1 does NOT "fall through to
deny" — it loops, observes HalfOpen and completes with an allowed result,
even though it never performed the transition. -/
theorem before_request_race_loser_not_denied :
    (execRace 10 (raceInit ⟨3, 2, 5⟩ 0 0 0 2) [0, 0, 1, 1, 0, 1, 0, 1]).threads[1]? =
        some ⟨.finished .allowed, false⟩ ∧
    (execRace 10 (raceInit ⟨3, 2, 5⟩ 0 0 0 2) [0, 0, 1, 1, 0, 1, 0, 1]).threads.countP
        (fun t => t.won) = 1 ∧
    (execRace 10 (raceInit ⟨3, 2, 5⟩ 0 0 0 2) [0, 0, 1, 1, 0, 1, 0, 1]).breaker.state =
      .HalfOpen := by
  decide

/-! ## Retry runner (C3)

`stellar.rs` calls `retry_async(&self.retry_config, ...)` and
`RetryConfig::default()`, but the definitions of `RetryConfig` and
`retry_async` are not part of the source tree — only their callers are.
They are therefore modelled from the spec (§4.2). -/

/-- Modelled from the spec: `RetryConfig` of the missing retry module.
Only `max_attempts` is kept: `initial_delay`, `max_delay` and
`backoff_multiplier` govern the sleeps between attempts and never affect
the returned value or the number of executions. -/
structure RetryConfig where
  max_attempts : Nat
deriving DecidableEq, Repr

/-- Modelled from the spec: the retry loop body.  `fuel` is the number of
retries still permitted after the current attempt; on success return
immediately, on a non-retryable error or with no fuel left return the
last error; otherwise advance to the next attempt.  The second component
of the result is the index of the last executed attempt, i.e. the number
of executions (attempts are numbered from 1). -/
def retryGo {E A : Type} (isRetryable : E → Bool) (op : Nat → Except E A) :
    Nat → Nat → Except E A × Nat
  | fuel, attempt =>
    match op attempt with
    | .ok a => (.ok a, attempt)
    | .error e =>
      match fuel with
      | 0 => (.error e, attempt)
      | fuel' + 1 =>
        if isRetryable e then retryGo isRetryable op fuel' (attempt + 1)
        else (.error e, attempt)

/-- Modelled from the spec: `retry_async` — run attempts `1..max_attempts`
with the given retryability classifier. -/
def retryAsync {E A : Type} (cfg : RetryConfig) (isRetryable : E → Bool)
    (op : Nat → Except E A) : Except E A × Nat :=
  retryGo isRetryable op (cfg.max_attempts - 1) 1

/-- One-step unfolding of the retry loop. -/
theorem retryGo_eq {E A : Type} (isRetryable : E → Bool) (op : Nat → Except E A)
    (fuel attempt : Nat) :
    retryGo isRetryable op fuel attempt =
      match op attempt with
      | .ok a => (.ok a, attempt)
      | .error e =>
        match fuel with
        | 0 => (.error e, attempt)
        | fuel' + 1 =>
          if isRetryable e then retryGo isRetryable op fuel' (attempt + 1)
          else (.error e, attempt) := by
  rw [retryGo]

/-- If every attempt up to the fuel bound fails retryably, the loop
exhausts its budget and returns the last error. -/
theorem retryGo_exhausts {E A : Type} (cls : E → Bool) (e : E) (v : A) (k : Nat)
    (hret : cls e = true) :
    ∀ (fuel attempt : Nat), attempt + fuel ≤ k →
      retryGo cls (fun i => if i ≤ k then Except.error e else Except.ok v) fuel attempt =
        (Except.error e, attempt + fuel) := by
  intro fuel
  induction fuel with
  | zero =>
    intro attempt h
    have h1 : attempt ≤ k := by omega
    rw [retryGo_eq]
    simp [h1]
  | succ f ih =>
    intro attempt h
    have h1 : attempt ≤ k := by omega
    rw [retryGo_eq]
    simp only [h1, if_true, hret]
    rw [ih (attempt + 1) (by omega)]
    congr 1
    omega

/-- If the operation first succeeds at attempt `k + 1` and that attempt is
within the fuel budget, the loop returns the success after exactly `k + 1`
executions. -/
theorem retryGo_succeeds {E A : Type} (cls : E → Bool) (e : E) (v : A) (k : Nat)
    (hret : cls e = true) :
    ∀ (fuel attempt : Nat), k + 1 ≤ attempt + fuel → attempt ≤ k + 1 →
      retryGo cls (fun i => if i ≤ k then Except.error e else Except.ok v) fuel attempt =
        (Except.ok v, k + 1) := by
  intro fuel
  induction fuel with
  | zero =>
    intro attempt h1 h2
    have ha : attempt = k + 1 := by omega
    have hle : ¬ attempt ≤ k := by omega
    rw [retryGo_eq]
    simp [hle, ha]
  | succ f ih =>
    intro attempt h1 h2
    by_cases hle : attempt ≤ k
    · rw [retryGo_eq]
      simp only [hle, if_true, hret]
      exact ih (attempt + 1) (by omega) (by omega)
    · have ha : attempt = k + 1 := by omega
      rw [retryGo_eq]
      simp [hle, ha]

/-- C3: with `max_attempts = n` and an operation that fails with a
retryable (5xx-classified) error exactly `k` times and then succeeds, the
retry runner returns the success after exactly `k + 1` executions when
`k + 1 ≤ n`, and returns the last error after exactly `n` executions when
`k ≥ n`. -/
theorem retry_runner_attempt_counts {E A : Type} (cls : E → Bool) (e : E) (v : A)
    (n k : Nat) (hn : 1 ≤ n) (hret : cls e = true) :
    (k + 1 ≤ n →
      retryAsync ⟨n⟩ cls (fun i => if i ≤ k then Except.error e else Except.ok v) =
        (Except.ok v, k + 1)) ∧
    (n ≤ k →
      retryAsync ⟨n⟩ cls (fun i => if i ≤ k then Except.error e else Except.ok v) =
        (Except.error e, n)) := by
  constructor
  · intro hk
    exact retryGo_succeeds cls e v k hret (n - 1) 1 (by omega) (by omega)
  · intro hk
    have := retryGo_exhausts cls e v k hret (n - 1) 1 (by omega)
    rw [retryAsync, this]
    congr 1
    omega

/-- Witness for C3: three failures against `max_attempts = 3` exhaust the
budget; one failure against `max_attempts = 3` succeeds on attempt 2. -/
theorem retry_runner_attempt_counts_witness :
    1 ≤ 3 ∧ (fun _ : Nat => true) 500 = true ∧
    (retryAsync ⟨3⟩ (fun _ => true)
        (fun i => if i ≤ 1 then Except.error 500 else Except.ok 42) =
      (Except.ok 42, 2)) ∧
    (retryAsync ⟨3⟩ (fun _ => true)
        (fun i => if i ≤ 7 then Except.error 500 else Except.ok 42) =
      (Except.error 500, 3)) :=
  ⟨by decide, rfl,
    (retry_runner_attempt_counts (fun _ : Nat => true) 500 42 3 1 (by decide) rfl).1
      (by decide),
    (retry_runner_attempt_counts (fun _ : Nat => true) 500 42 3 7 (by decide) rfl).2
      (by decide)⟩

/-! ## `verify_hash` outcome classification (C7)

The closure inside `StellarClient::verify_hash` (`stellar.rs`) is embedded
as a function of the HTTP outcome of one attempt; the `reqwest` send
error, the HTTP status code and a possible JSON-parse failure are the
inputs, and `chrono`'s RFC3339 parser is an abstract parameter. -/

/-- `VerificationResult` from `stellar.rs`. -/
structure VerificationResult where
  verified : Bool
  transaction_id : Option (List Char)
  timestamp : Option Int
deriving DecidableEq, Repr

/-- The fields of the deserialized Horizon `Transaction` used by
`verify_hash`. -/
structure Transaction where
  id : List Char
  created_at : List Char
  memo : Option (List Char)
deriving DecidableEq, Repr

/-- `HorizonResponse`: the `_embedded.records` array. -/
structure HorizonResponse where
  records : List Transaction
deriving DecidableEq, Repr

/-- Outcome of one physical HTTP attempt: the send itself fails, or a
status arrives with a body that either deserializes (`some`) or not
(`none`). -/
inductive HttpOutcome where
  | sendFailure (msg : List Char)
  | response (status : Nat) (body : Option HorizonResponse)
deriving DecidableEq, Repr

/-- The `anyhow` errors produced inside `verify_hash`, structured by the
format string that builds them. -/
inductive VerifyErr where
  | httpRequestFailed (msg : List Char)
  | serverError (status : Nat)
  | parseFailed
deriving DecidableEq, Repr

/-- `reqwest::StatusCode::is_server_error`: `500..=599`. -/
def statusIsServerError (s : Nat) : Bool := decide (500 ≤ s ∧ s ≤ 599)

/-- `reqwest::StatusCode::is_client_error`: `400..=499`. -/
def statusIsClientError (s : Nat) : Bool := decide (400 ≤ s ∧ s ≤ 499)

/-- `reqwest::StatusCode::is_success`: `200..=299`. -/
def statusIsSuccess (s : Nat) : Bool := decide (200 ≤ s ∧ s ≤ 299)

/-- Rust `str::contains`: `hay.contains(pat)`. -/
def containsSub (hay pat : List Char) : Bool := decide (pat <:+: hay)

/-- The record-scanning loop of `verify_hash`: first transaction whose
memo contains the document hash wins; otherwise unverified. -/
def findVerified (parse : List Char → Option Int) (hash : List Char) :
    List Transaction → VerificationResult
  | [] => ⟨false, none, none⟩
  | tx :: rest =>
    match tx.memo with
    | some memo =>
      if containsSub memo hash then ⟨true, some tx.id, parse tx.created_at⟩
      else findVerified parse hash rest
    | none => findVerified parse hash rest

/-- The closure inside `verify_hash` (`stellar.rs` lines 143-209), for one
attempt: 5xx is an error (to be retried), 4xx and other non-success
statuses return an unverified result, a JSON failure is an error, and a
deserialized body is scanned for a memo containing the hash. -/
def verifyHashOnce (parse : List Char → Option Int) (outcome : HttpOutcome)
    (hash : List Char) : Except VerifyErr VerificationResult :=
  match outcome with
  | .sendFailure msg => .error (.httpRequestFailed msg)
  | .response status body =>
    if statusIsServerError status then .error (.serverError status)
    else if statusIsClientError status then .ok ⟨false, none, none⟩
    else if ¬ statusIsSuccess status then .ok ⟨false, none, none⟩
    else
      match body with
      | none => .error .parseFailed
      | some resp => .ok (findVerified parse hash resp.records)

/-- Modelled from the spec: the retryability classifier of the missing
retry module (§4.2) — transport errors and 5xx retryable, everything else
terminal. -/
def isRetryableErr : VerifyErr → Bool
  | .httpRequestFailed _ => true
  | .serverError _ => true
  | .parseFailed => false

/-- `verify_hash` = the per-attempt closure run under `retry_async`, the
attempt outcomes given as an oracle sequence. -/
def verifyHashModel (cfg : RetryConfig) (parse : List Char → Option Int)
    (outcomes : Nat → HttpOutcome) (hash : List Char) :
    Except VerifyErr VerificationResult × Nat :=
  retryAsync cfg isRetryableErr (fun i => verifyHashOnce parse (outcomes i) hash)

/-- Any error returned by the retry loop was produced by one of the
attempted operations. -/
theorem retryGo_error_source {E A : Type} (cls : E → Bool) (op : Nat → Except E A) :
    ∀ (fuel attempt : Nat) (e : E),
      (retryGo cls op fuel attempt).1 = .error e → ∃ i, op i = .error e := by
  intro fuel
  induction fuel with
  | zero =>
    intro attempt e h
    rw [retryGo_eq] at h
    cases hop : op attempt with
    | ok a => rw [hop] at h; simp at h
    | error e' => rw [hop] at h; simp at h; exact ⟨attempt, by rw [hop, h]⟩
  | succ f ih =>
    intro attempt e h
    rw [retryGo_eq] at h
    cases hop : op attempt with
    | ok a => rw [hop] at h; simp at h
    | error e' =>
      rw [hop] at h
      by_cases hr : cls e' = true
      · simp only [hr, if_true] at h
        exact ih (attempt + 1) e h
      · simp only [Bool.not_eq_true] at hr
        simp [hr] at h
        exact ⟨attempt, by rw [hop, h]⟩

/-- A single `verify_hash` attempt errors only on a failed send, a 5xx
status, or a parse failure of a successful response. -/
theorem verifyHashOnce_error_inv (parse : List Char → Option Int)
    (outcome : HttpOutcome) (hash : List Char) (e : VerifyErr)
    (h : verifyHashOnce parse outcome hash = .error e) :
    (∃ m, outcome = .sendFailure m) ∨
    (∃ s b, outcome = .response s b ∧ statusIsServerError s = true) ∨
    (∃ s, outcome = .response s none ∧ statusIsSuccess s = true) := by
  cases outcome with
  | sendFailure m => exact Or.inl ⟨m, rfl⟩
  | response status body =>
    by_cases h5 : statusIsServerError status = true
    · exact Or.inr (Or.inl ⟨status, body, rfl, h5⟩)
    · simp only [verifyHashOnce] at h
      rw [if_neg h5] at h
      by_cases h4 : statusIsClientError status = true
      · rw [if_pos h4] at h
        simp at h
      · rw [if_neg h4] at h
        by_cases hs : statusIsSuccess status = true
        · rw [if_neg (not_not_intro hs)] at h
          cases body with
          | none => exact Or.inr (Or.inr ⟨status, rfl, hs⟩)
          | some resp => simp at h
        · rw [if_pos hs] at h
          simp at h

/-- A record list with no memo containing the hash scans to unverified. -/
theorem findVerified_no_match (parse : List Char → Option Int) (hash : List Char) :
    ∀ (l : List Transaction),
      (∀ tx ∈ l, ∀ memo, tx.memo = some memo → containsSub memo hash = false) →
      findVerified parse hash l = ⟨false, none, none⟩ := by
  intro l
  induction l with
  | nil => intro _; rfl
  | cons tx rest ih =>
    intro hnone
    cases hm : tx.memo with
    | none =>
      simp only [findVerified, hm]
      exact ih (fun u hu => hnone u (List.mem_cons_of_mem _ hu))
    | some memo =>
      simp only [findVerified, hm]
      rw [if_neg (by simp [hnone tx (List.mem_cons_self _ _) memo hm])]
      exact ih (fun u hu => hnone u (List.mem_cons_of_mem _ hu))

/-- C7: `verify_hash` returns `Ok(VerificationResult{verified:false,..})`
— not an error — both when the ledger responds with a 4xx status and when
a successful response contains no transaction whose memo contains the
queried hash; conversely, every error it returns originates from an
attempt that hit a transport failure, a 5xx status, or a parse failure. -/
theorem verify_hash_error_classification (cfg : RetryConfig)
    (parse : List Char → Option Int) (outcomes : Nat → HttpOutcome)
    (hash : List Char) :
    (∀ (s : Nat) (b : Option HorizonResponse), statusIsClientError s = true →
      verifyHashOnce parse (.response s b) hash = .ok ⟨false, none, none⟩) ∧
    (∀ (s : Nat) (resp : HorizonResponse), statusIsSuccess s = true →
      (∀ tx ∈ resp.records, ∀ memo, tx.memo = some memo →
        containsSub memo hash = false) →
      verifyHashOnce parse (.response s (some resp)) hash = .ok ⟨false, none, none⟩) ∧
    (∀ e, (verifyHashModel cfg parse outcomes hash).1 = .error e →
      ∃ i, (∃ m, outcomes i = .sendFailure m) ∨
        (∃ s b, outcomes i = .response s b ∧ statusIsServerError s = true) ∨
        (∃ s, outcomes i = .response s none ∧ statusIsSuccess s = true)) := by
  refine ⟨?_, ?_, ?_⟩
  · intro s b h4
    have h5 : ¬ statusIsServerError s = true := by
      simp only [statusIsClientError, decide_eq_true_eq] at h4
      simp only [statusIsServerError, decide_eq_true_eq]
      omega
    simp only [verifyHashOnce]
    rw [if_neg h5, if_pos h4]
  · intro s resp hs hnone
    have h5 : ¬ statusIsServerError s = true := by
      simp only [statusIsSuccess, decide_eq_true_eq] at hs
      simp only [statusIsServerError, decide_eq_true_eq]
      omega
    have h4 : ¬ statusIsClientError s = true := by
      simp only [statusIsSuccess, decide_eq_true_eq] at hs
      simp only [statusIsClientError, decide_eq_true_eq]
      omega
    simp only [verifyHashOnce]
    rw [if_neg h5, if_neg h4, if_neg (not_not_intro hs),
      findVerified_no_match parse hash resp.records hnone]
  · intro e herr
    obtain ⟨i, hop⟩ := retryGo_error_source isRetryableErr _ (cfg.max_attempts - 1) 1 e herr
    exact ⟨i, verifyHashOnce_error_inv parse (outcomes i) hash e hop⟩

/-- Witness for C7: a 404 yields an unverified Ok, an unmatched record
list yields an unverified Ok, and a run of 503s yields a server error
traced back to its 5xx attempt. -/
theorem verify_hash_error_classification_witness :
    statusIsClientError 404 = true ∧
    verifyHashOnce (fun _ => none) (.response 404 none) ['a'] =
      .ok ⟨false, none, none⟩ ∧
    verifyHashOnce (fun _ => none)
        (.response 200 (some ⟨[⟨['t'], ['d'], some ['x']⟩]⟩)) ['a'] =
      .ok ⟨false, none, none⟩ ∧
    (∃ i, (∃ m, (fun _ : Nat => HttpOutcome.response 503 none) i = .sendFailure m) ∨
      (∃ s b, (fun _ : Nat => HttpOutcome.response 503 none) i = .response s b ∧
        statusIsServerError s = true) ∨
      (∃ s, (fun _ : Nat => HttpOutcome.response 503 none) i = .response s none ∧
        statusIsSuccess s = true)) :=
  ⟨by decide,
    (verify_hash_error_classification ⟨2⟩ (fun _ => none)
      (fun _ => .response 503 none) ['a']).1 404 none (by decide),
    (verify_hash_error_classification ⟨2⟩ (fun _ => none)
      (fun _ => .response 503 none) ['a']).2.1 200 ⟨[⟨['t'], ['d'], some ['x']⟩]⟩
      (by decide) (by decide),
    (verify_hash_error_classification ⟨2⟩ (fun _ => none)
      (fun _ => .response 503 none) ['a']).2.2 (.serverError 503) (by rfl)⟩

/-! ## Hash validator (C9)

`hash_validator.rs`, with Rust strings as `List Char`.  `str::trim` and
`str::to_lowercase` are Unicode operations in Rust.  `str::trim` is
embedded exactly: the Unicode White_Space property is a small fixed
character list.  `str::to_lowercase` is the Unicode default lowercase
conversion — a character table of over a thousand entries plus a context
rule for final sigma, owned by the standard library — and enters the
model as an explicit function parameter: the theorems below hold for
every function of that type, in particular for the real conversion.
`str::len` is the UTF-8 byte length, modelled explicitly. -/

/-- `ValidationError` from `hash_validator.rs`. -/
inductive ValidationError where
  | WrongLength (expected actual : Nat)
  | InvalidCharacter (position : Nat) (character : Char)
  | EmptyHash
deriving DecidableEq, Repr

/-- `char::is_whitespace`: the complete Unicode White_Space list
(U+0009–U+000D, U+0020, U+0085, U+00A0, U+1680, U+2000–U+200A, U+2028,
U+2029, U+202F, U+205F, U+3000). -/
def isWhitespaceChar (c : Char) : Bool :=
  decide ((9 ≤ c.toNat ∧ c.toNat ≤ 13) ∨ c.toNat = 32 ∨ c.toNat = 0x85 ∨
    c.toNat = 0xA0 ∨ c.toNat = 0x1680 ∨
    (0x2000 ≤ c.toNat ∧ c.toNat ≤ 0x200A) ∨ c.toNat = 0x2028 ∨
    c.toNat = 0x2029 ∨ c.toNat = 0x202F ∨ c.toNat = 0x205F ∨
    c.toNat = 0x3000)

/-- `str::trim`: drop whitespace from both ends. -/
def trimChars (l : List Char) : List Char :=
  ((l.dropWhile isWhitespaceChar).reverse.dropWhile isWhitespaceChar).reverse

/-- `HashValidator::normalize`: `hash.trim().to_lowercase()`, for a given
lowercase conversion `toLower` standing for `str::to_lowercase` (see the
section comment). -/
def normalize (toLower : List Char → List Char) (l : List Char) : List Char :=
  toLower (trimChars l)

/-- The ASCII fragment of the Unicode lowercase conversion (`A`–`Z` map
to `a`–`z`, everything else fixed); `str::to_lowercase` agrees with it on
ASCII strings.  Used to instantiate witnesses on ASCII inputs. -/
def asciiToLower (l : List Char) : List Char :=
  l.map fun c =>
    if 'A'.toNat ≤ c.toNat ∧ c.toNat ≤ 'Z'.toNat then Char.ofNat (c.toNat + 32)
    else c

/-- UTF-8 encoded size of one char (`str::len` counts bytes). -/
def utf8Len (c : Char) : Nat :=
  if c.toNat < 0x80 then 1
  else if c.toNat < 0x800 then 2
  else if c.toNat < 0x10000 then 3
  else 4

/-- `str::len`: total UTF-8 byte length. -/
def byteLen (l : List Char) : Nat := (l.map utf8Len).sum

/-- `matches!(ch, '0'..='9' | 'a'..='f')`, via code points. -/
def isHexChar (c : Char) : Bool :=
  decide (('0'.toNat ≤ c.toNat ∧ c.toNat ≤ '9'.toNat) ∨
    ('a'.toNat ≤ c.toNat ∧ c.toNat ≤ 'f'.toNat))

/-- The `for (idx, ch) in normalized.chars().enumerate()` scan: first
non-hex character aborts with its position. -/
def findInvalid : List Char → Nat → Except ValidationError Unit
  | [], _ => .ok ()
  | c :: rest, idx =>
    if isHexChar c then findInvalid rest (idx + 1)
    else .error (.InvalidCharacter idx c)

/-- `HashValidator::validate_with_length`. -/
def validateWithLength (toLower : List Char → List Char) (hash : List Char)
    (expected : Nat) : Except ValidationError Unit :=
  let normalized := normalize toLower hash
  if normalized.isEmpty then .error .EmptyHash
  else
    let actual := byteLen normalized
    if actual ≠ expected then .error (.WrongLength expected actual)
    else findInvalid normalized 0

/-- `HashValidator::validate_sha256`. -/
def validate_sha256 (toLower : List Char → List Char) (hash : List Char) :
    Except ValidationError Unit :=
  validateWithLength toLower hash 64

/-- A hex character occupies one UTF-8 byte. -/
theorem utf8Len_of_hex (c : Char) (h : isHexChar c = true) : utf8Len c = 1 := by
  simp only [isHexChar, decide_eq_true_eq] at h
  have e2 : ('9' : Char).toNat = 57 := rfl
  have e4 : ('f' : Char).toNat = 102 := rfl
  rw [e2, e4] at h
  simp only [utf8Len]
  have : c.toNat < 0x80 := by
    rcases h with ⟨_, h2⟩ | ⟨_, h2⟩ <;> omega
  rw [if_pos this]

/-- On an all-hex string the byte length equals the character count. -/
theorem byteLen_of_hex :
    ∀ (l : List Char), (∀ c ∈ l, isHexChar c = true) → byteLen l = l.length := by
  intro l
  induction l with
  | nil => intro _; rfl
  | cons c rest ih =>
    intro hall
    simp only [byteLen, List.map_cons, List.sum_cons, List.length_cons]
    rw [utf8Len_of_hex c (hall c (List.mem_cons_self _ _))]
    have := ih (fun u hu => hall u (List.mem_cons_of_mem _ hu))
    simp only [byteLen] at this
    omega

/-- The scan succeeds exactly on all-hex strings. -/
theorem findInvalid_ok_iff :
    ∀ (l : List Char) (i : Nat),
      findInvalid l i = .ok () ↔ ∀ c ∈ l, isHexChar c = true := by
  intro l
  induction l with
  | nil => intro i; simp [findInvalid]
  | cons c rest ih =>
    intro i
    by_cases hc : isHexChar c = true
    · simp only [findInvalid, if_pos hc]
      rw [ih (i + 1)]
      constructor
      · intro h u hu
        rcases List.mem_cons.mp hu with rfl | hu
        · exact hc
        · exact h u hu
      · intro h u hu
        exact h u (List.mem_cons_of_mem _ hu)
    · simp only [findInvalid, if_neg hc]
      constructor
      · intro h; exact absurd h (by simp)
      · intro h
        exact absurd (h c (List.mem_cons_self _ _)) hc

/-- A failing scan reports the first offending character at its index. -/
theorem findInvalid_error_first :
    ∀ (l : List Char) (i : Nat) (err : ValidationError),
      findInvalid l i = .error err →
      ∃ j c, err = .InvalidCharacter (i + j) c ∧ l[j]? = some c ∧
        isHexChar c = false ∧
        ∀ m, m < j → ∀ d, l[m]? = some d → isHexChar d = true := by
  intro l
  induction l with
  | nil => intro i err h; simp [findInvalid] at h
  | cons c rest ih =>
    intro i err h
    by_cases hc : isHexChar c = true
    · rw [findInvalid, if_pos hc] at h
      obtain ⟨j, d, herr, hget, hnh, hfirst⟩ := ih (i + 1) err h
      refine ⟨j + 1, d, by rw [herr]; congr 1; omega, by simpa using hget, hnh, ?_⟩
      intro m hm e hme
      cases m with
      | zero =>
        simp only [List.getElem?_cons_zero, Option.some.injEq] at hme
        subst hme
        exact hc
      | succ m' =>
        simp only [List.getElem?_cons_succ] at hme
        exact hfirst m' (by omega) e hme
    · rw [findInvalid, if_neg hc] at h
      simp only [Except.error.injEq] at h
      exact ⟨0, c, by rw [← h]; rfl, by simp, by simpa using hc,
        fun m hm => absurd hm (by omega)⟩

/-- C9: for every lowercase conversion (in particular the real
`str::to_lowercase`), `validate_sha256` accepts exactly the inputs whose
normalization (trimmed of Unicode whitespace, lowercased) is 64 hex
characters `0-9a-f` — so surrounding whitespace and uppercase hex digits
are accepted — and otherwise reports `EmptyHash`, `WrongLength`, or
`InvalidCharacter` with the first offending position. -/
theorem validate_sha256_characterization (toLower : List Char → List Char)
    (h : List Char) :
    (validate_sha256 toLower h = .ok () ↔
      (normalize toLower h).length = 64 ∧
        ∀ c ∈ normalize toLower h, isHexChar c = true) ∧
    (∀ err, validate_sha256 toLower h = .error err →
      (err = .EmptyHash ∧ normalize toLower h = []) ∨
      (err = .WrongLength 64 (byteLen (normalize toLower h)) ∧
        byteLen (normalize toLower h) ≠ 64 ∧ normalize toLower h ≠ []) ∨
      (∃ p c, err = .InvalidCharacter p c ∧ (normalize toLower h)[p]? = some c ∧
        isHexChar c = false ∧
        ∀ m, m < p → ∀ d, (normalize toLower h)[m]? = some d →
          isHexChar d = true)) := by
  constructor
  · constructor
    · intro hok
      unfold validate_sha256 validateWithLength at hok
      by_cases hemp : (normalize toLower h).isEmpty = true
      · rw [if_pos hemp] at hok; exact absurd hok (by simp)
      · rw [if_neg hemp] at hok
        by_cases hlen : byteLen (normalize toLower h) ≠ 64
        · rw [if_pos hlen] at hok; exact absurd hok (by simp)
        · rw [if_neg hlen] at hok
          have hhex := (findInvalid_ok_iff (normalize toLower h) 0).mp hok
          refine ⟨?_, hhex⟩
          rw [← byteLen_of_hex (normalize toLower h) hhex]
          omega
    · intro ⟨hlen, hhex⟩
      unfold validate_sha256 validateWithLength
      have hbl : byteLen (normalize toLower h) = 64 := by
        rw [byteLen_of_hex (normalize toLower h) hhex]; exact hlen
      have hemp : ¬ (normalize toLower h).isEmpty = true := by
        simp only [List.isEmpty_iff]
        intro hnil
        rw [hnil] at hlen
        simp at hlen
      rw [if_neg hemp, if_neg (by omega)]
      exact (findInvalid_ok_iff (normalize toLower h) 0).mpr hhex
  · intro err herr
    unfold validate_sha256 validateWithLength at herr
    by_cases hemp : (normalize toLower h).isEmpty = true
    · rw [if_pos hemp] at herr
      simp only [Except.error.injEq] at herr
      exact Or.inl ⟨herr.symm, List.isEmpty_iff.mp hemp⟩
    · rw [if_neg hemp] at herr
      by_cases hlen : byteLen (normalize toLower h) ≠ 64
      · rw [if_pos hlen] at herr
        simp only [Except.error.injEq] at herr
        exact Or.inr (Or.inl ⟨herr.symm, hlen, by simpa [List.isEmpty_iff] using hemp⟩)
      · rw [if_neg hlen] at herr
        obtain ⟨j, c, he, hget, hnh, hfirst⟩ :=
          findInvalid_error_first (normalize toLower h) 0 err herr
        exact Or.inr (Or.inr ⟨j, c, by simpa using he, hget, hnh,
          fun m hm d hmd => hfirst m hm d hmd⟩)

/-- Witness for C9: an uppercase hash with a leading space is accepted;
a stray `g` is reported at its position. -/
theorem validate_sha256_characterization_witness :
    validate_sha256 asciiToLower
        (' ' :: (List.replicate 32 'A' ++ List.replicate 32 'b')) = .ok () ∧
    ((ValidationError.InvalidCharacter 0 'g' = .EmptyHash ∧
        normalize asciiToLower ('g' :: List.replicate 63 'a') = []) ∨
      (ValidationError.InvalidCharacter 0 'g' =
          .WrongLength 64
            (byteLen (normalize asciiToLower ('g' :: List.replicate 63 'a'))) ∧
        byteLen (normalize asciiToLower ('g' :: List.replicate 63 'a')) ≠ 64 ∧
        normalize asciiToLower ('g' :: List.replicate 63 'a') ≠ []) ∨
      (∃ p c, ValidationError.InvalidCharacter 0 'g' = .InvalidCharacter p c ∧
        (normalize asciiToLower ('g' :: List.replicate 63 'a'))[p]? = some c ∧
        isHexChar c = false ∧
        ∀ m, m < p → ∀ d,
          (normalize asciiToLower ('g' :: List.replicate 63 'a'))[m]? = some d →
          isHexChar d = true)) :=
  ⟨(validate_sha256_characterization asciiToLower
      (' ' :: (List.replicate 32 'A' ++ List.replicate 32 'b'))).1.mpr
    (by constructor
        · decide
        · decide),
    (validate_sha256_characterization asciiToLower
        ('g' :: List.replicate 63 'a')).2
      (ValidationError.InvalidCharacter 0 'g') (by rfl)⟩

/-! ## Memo truncation (C6)

`stellar.rs` composes the revocation memo as `format!(\"REVOKE:{}\", hash)`
and truncates it with a raw byte slice `&memo_content[..28]`.  Rust string
slicing panics when the end index is not a UTF-8 character boundary; the
model returns `none` for that panic.  `truncate_memo` (same file) is the
boundary-safe truncation helper, embedded for comparison. -/

/-- `MAX_MEMO_LENGTH` from `stellar.rs`. -/
def MAX_MEMO_LENGTH : Nat := 28

/-- Rust `&s[..n]` on a string: the prefix of byte length exactly `n`, or
`none` (a panic) when `n` is not a character boundary or exceeds the
string. -/
def byteSliceTo : List Char → Nat → Option (List Char)
  | _, 0 => some []
  | [], _ + 1 => none
  | c :: rest, n + 1 =>
    if utf8Len c ≤ n + 1 then (byteSliceTo rest (n + 1 - utf8Len c)).map (c :: ·)
    else none

/-- Rust `str::is_char_boundary`: `n` is 0 or the byte offset of the end
of some character prefix. -/
def isCharBoundary (l : List Char) (n : Nat) : Bool :=
  (List.range (l.length + 1)).any fun k => byteLen (l.take k) == n

/-- The `while end > 0 && !hash.is_char_boundary(end) { end -= 1 }` loop
of `truncate_memo`. -/
def boundaryDown (l : List Char) : Nat → Nat
  | 0 => 0
  | n + 1 => if isCharBoundary l (n + 1) then n + 1 else boundaryDown l n

/-- `truncate_memo` from `stellar.rs`: boundary-safe truncation to at most
28 bytes (the slice at a boundary always succeeds; `getD` only discharges
the option). -/
def truncate_memo (hash : List Char) : List Char :=
  if byteLen hash > MAX_MEMO_LENGTH then
    (byteSliceTo hash (boundaryDown hash MAX_MEMO_LENGTH)).getD []
  else hash

/-- The memo composition inside `revoke_hash` (`stellar.rs` lines
724-730): `\"REVOKE:\" + hash`, then a raw `&memo_content[..28]` byte slice
when longer than 28 bytes. -/
def revokeMemo (document_hash : List Char) : Option (List Char) :=
  let memo_content := "REVOKE:".data ++ document_hash
  if byteLen memo_content > 28 then byteSliceTo memo_content 28
  else some memo_content

/-- C6 fails on the code: for a document hash of fifteen two-byte
characters, byte offset 28 of `\"REVOKE:\" + hash` falls inside a
character, so `revoke_hash`'s raw slice panics — while the repository's
own `truncate_memo`, applied to the same memo content, returns the
27-byte boundary-safe prefix the spec describes. -/
theorem revoke_hash_memo_panics :
    revokeMemo (List.replicate 15 'é') = none ∧
    truncate_memo ("REVOKE:".data ++ List.replicate 15 'é') =
      "REVOKE:".data ++ List.replicate 10 'é' := by
  constructor
  · rfl
  · rfl

/-! ## SHA-256 (for `compute_transfer_hash` and HMAC)

`lib.rs` uses `sha2::Sha256` and `webhook_dispatcher.rs` uses
`Hmac<Sha256>`; the hash is embedded executably over byte lists (`Nat`
values `< 256`), words as `Nat` with explicit `% 2 ^ 32`.  The embedding
is validated below against the standard test vectors for SHA-256 of the
empty string and of `"abc"`. -/

/-- 32-bit rotate right. -/
def rotr (n x : Nat) : Nat := ((x >>> n) ||| (x <<< (32 - n))) % 2 ^ 32

def smallSigma0 (x : Nat) : Nat := (rotr 7 x) ^^^ (rotr 18 x) ^^^ (x >>> 3)

def smallSigma1 (x : Nat) : Nat := (rotr 17 x) ^^^ (rotr 19 x) ^^^ (x >>> 10)

def bigSigma0 (x : Nat) : Nat := (rotr 2 x) ^^^ (rotr 13 x) ^^^ (rotr 22 x)

def bigSigma1 (x : Nat) : Nat := (rotr 6 x) ^^^ (rotr 11 x) ^^^ (rotr 25 x)

/-- SHA-256 choice function (32-bit complement via XOR with all-ones). -/
def chFn (x y z : Nat) : Nat := (x &&& y) ^^^ ((x ^^^ 0xFFFFFFFF) &&& z)

/-- SHA-256 majority function. -/
def majFn (x y z : Nat) : Nat := (x &&& y) ^^^ (x &&& z) ^^^ (y &&& z)

/-- The 64 SHA-256 round constants of FIPS 180-4 (decimal). -/
def K256 : List Nat :=
  [1116352408, 1899447441, 3049323471, 3921009573, 961987163, 1508970993,
   2453635748, 2870763221, 3624381080, 310598401, 607225278, 1426881987,
   1925078388, 2162078206, 2614888103, 3248222580, 3835390401, 4022224774,
   264347078, 604807628, 770255983, 1249150122, 1555081692, 1996064986,
   2554220882, 2821834349, 2952996808, 3210313671, 3336571891, 3584528711,
   113926993, 338241895, 666307205, 773529912, 1294757372, 1396182291,
   1695183700, 1986661051, 2177026350, 2456956037, 2730485921, 2820302411,
   3259730800, 3345764771, 3516065817, 3600352804, 4094571909, 275423344,
   430227734, 506948616, 659060556, 883997877, 958139571, 1322822218,
   1537002063, 1747873779, 1955562222, 2024104815, 2227730452, 2361852424,
   2428436474, 2756734187, 3204031479, 3329325298]

/-- The eight 32-bit words of the SHA-256 state. -/
structure Hash8 where
  h0 : Nat
  h1 : Nat
  h2 : Nat
  h3 : Nat
  h4 : Nat
  h5 : Nat
  h6 : Nat
  h7 : Nat
deriving DecidableEq, Repr

/-- SHA-256 initial state. -/
def initH : Hash8 :=
  ⟨1779033703, 3144134277, 1013904242, 2773480762,
   1359893119, 2600822924, 528734635, 1541459225⟩

/-- Extend the message schedule by one word. -/
def scheduleStep (w : List Nat) : List Nat :=
  let n := w.length
  w ++ [(smallSigma1 (w.getD (n - 2) 0) + w.getD (n - 7) 0 +
    smallSigma0 (w.getD (n - 15) 0) + w.getD (n - 16) 0) % 2 ^ 32]

/-- Full 64-word message schedule from a 16-word block. -/
def schedule (block : List Nat) : List Nat := scheduleStep^[48] block

/-- One compression round. -/
def roundStep (st : Hash8) (kw : Nat × Nat) : Hash8 :=
  let t1 := (st.h7 + bigSigma1 st.h4 + chFn st.h4 st.h5 st.h6 + kw.1 + kw.2) % 2 ^ 32
  let t2 := (bigSigma0 st.h0 + majFn st.h0 st.h1 st.h2) % 2 ^ 32
  ⟨(t1 + t2) % 2 ^ 32, st.h0, st.h1, st.h2, (st.h3 + t1) % 2 ^ 32, st.h4, st.h5, st.h6⟩

/-- Compress one 16-word block into the running state. -/
def compressBlock (h : Hash8) (block : List Nat) : Hash8 :=
  let st := (K256.zip (schedule block)).foldl roundStep h
  ⟨(h.h0 + st.h0) % 2 ^ 32, (h.h1 + st.h1) % 2 ^ 32, (h.h2 + st.h2) % 2 ^ 32,
   (h.h3 + st.h3) % 2 ^ 32, (h.h4 + st.h4) % 2 ^ 32, (h.h5 + st.h5) % 2 ^ 32,
   (h.h6 + st.h6) % 2 ^ 32, (h.h7 + st.h7) % 2 ^ 32⟩

/-- Big-endian bytes of a 32-bit word. -/
def wordBytes (w : Nat) : List Nat :=
  [(w >>> 24) % 256, (w >>> 16) % 256, (w >>> 8) % 256, w % 256]

/-- Big-endian bytes of a 64-bit word. -/
def word64Bytes (w : Nat) : List Nat :=
  [(w >>> 56) % 256, (w >>> 48) % 256, (w >>> 40) % 256, (w >>> 32) % 256,
   (w >>> 24) % 256, (w >>> 16) % 256, (w >>> 8) % 256, w % 256]

/-- Big-endian 32-bit words from bytes. -/
def bytesToWords : List Nat → List Nat
  | b0 :: b1 :: b2 :: b3 :: rest =>
    ((b0 <<< 24) + (b1 <<< 16) + (b2 <<< 8) + b3) :: bytesToWords rest
  | _ => []

/-- SHA-256 padding: `0x80`, zeros to 56 mod 64, 64-bit bit length. -/
def padMessage (msg : List Nat) : List Nat :=
  let len := msg.length
  let padZeros := (55 + 64 - len % 64) % 64
  msg ++ 0x80 :: (List.replicate padZeros 0 ++ word64Bytes (len * 8))

/-- Split into 64-byte chunks (fuel-structural so the kernel can
evaluate; one chunk consumes at least one byte, so `l.length` fuel
suffices). -/
def chunk64Fuel : Nat → List Nat → List (List Nat)
  | 0, _ => []
  | _ + 1, [] => []
  | fuel + 1, l => l.take 64 :: chunk64Fuel fuel (l.drop 64)

def chunk64 (l : List Nat) : List (List Nat) := chunk64Fuel l.length l

/-- Serialize the final state (8 words, big-endian). -/
def hashBytes (h : Hash8) : List Nat :=
  [h.h0, h.h1, h.h2, h.h3, h.h4, h.h5, h.h6, h.h7].flatMap wordBytes

/-- SHA-256 of a byte string. -/
def sha256 (msg : List Nat) : List Nat :=
  hashBytes ((chunk64 (padMessage msg)).foldl
    (fun h b => compressBlock h (bytesToWords b)) initH)

/-- Validation of the embedding: the standard SHA-256 test vectors for
the empty string and for `"abc"`. -/
theorem sha256_test_vectors :
    sha256 [] =
      [0xe3, 0xb0, 0xc4, 0x42, 0x98, 0xfc, 0x1c, 0x14, 0x9a, 0xfb, 0xf4, 0xc8,
       0x99, 0x6f, 0xb9, 0x24, 0x27, 0xae, 0x41, 0xe4, 0x64, 0x9b, 0x93, 0x4c,
       0xa4, 0x95, 0x99, 0x1b, 0x78, 0x52, 0xb8, 0x55] ∧
    sha256 [97, 98, 99] =
      [0xba, 0x78, 0x16, 0xbf, 0x8f, 0x01, 0xcf, 0xea, 0x41, 0x41, 0x40, 0xde,
       0x5d, 0xae, 0x22, 0x23, 0xb0, 0x03, 0x61, 0xa3, 0x96, 0x17, 0x7a, 0x9c,
       0xb4, 0x10, 0xff, 0x61, 0xf2, 0x00, 0x15, 0xad] := by
  constructor <;> decide

/-- The digest is always 32 bytes. -/
theorem sha256_length (msg : List Nat) : (sha256 msg).length = 32 := by
  simp [sha256, hashBytes, wordBytes]

/-- Every byte of a `wordBytes` serialization is below 256. -/
theorem wordBytes_lt (w : Nat) : ∀ b ∈ wordBytes w, b < 256 := by
  intro b hb
  simp only [wordBytes, List.mem_cons, List.not_mem_nil, or_false] at hb
  rcases hb with rfl | rfl | rfl | rfl <;> omega

/-- Every digest byte is below 256. -/
theorem sha256_bytes_lt (msg : List Nat) : ∀ b ∈ sha256 msg, b < 256 := by
  intro b hb
  simp only [sha256, hashBytes, List.mem_flatMap] at hb
  obtain ⟨w, _, hbw⟩ := hb
  exact wordBytes_lt w b hbw

/-! ## UTF-8 and hex encodings (`str::as_bytes`, `hex::encode`) -/

/-- UTF-8 encoding of one character. -/
def utf8Bytes (c : Char) : List Nat :=
  let n := c.toNat
  if n < 0x80 then [n]
  else if n < 0x800 then [0xC0 ||| (n >>> 6), 0x80 ||| (n &&& 0x3F)]
  else if n < 0x10000 then
    [0xE0 ||| (n >>> 12), 0x80 ||| ((n >>> 6) &&& 0x3F), 0x80 ||| (n &&& 0x3F)]
  else
    [0xF0 ||| (n >>> 18), 0x80 ||| ((n >>> 12) &&& 0x3F),
     0x80 ||| ((n >>> 6) &&& 0x3F), 0x80 ||| (n &&& 0x3F)]

/-- `str::as_bytes`. -/
def utf8Encode (l : List Char) : List Nat := l.flatMap utf8Bytes

/-- One lowercase hex digit, as produced by `hex::encode`. -/
def hexDigit (n : Nat) : Char :=
  Char.ofNat (if n < 10 then 48 + n else 87 + n)

/-- `hex::encode`: two lowercase hex digits per byte. -/
def hexEncode (bytes : List Nat) : List Char :=
  bytes.flatMap (fun b => [hexDigit (b / 16), hexDigit (b % 16)])

/-- Hex encoding doubles the length. -/
theorem hexEncode_length :
    ∀ (bs : List Nat), (hexEncode bs).length = 2 * bs.length := by
  intro bs
  induction bs with
  | nil => rfl
  | cons b rest ih =>
    simp only [hexEncode, List.flatMap_cons, List.length_append] at *
    rw [ih]
    simp
    omega

/-- The sixteen hex digits are lowercase hex characters. -/
theorem hexDigit_isHex : ∀ n, n < 16 → isHexChar (hexDigit n) = true := by decide

/-- Every character of an encoding of genuine bytes is a lowercase hex
digit. -/
theorem hexEncode_chars_hex (bs : List Nat) (hlt : ∀ b ∈ bs, b < 256) :
    ∀ c ∈ hexEncode bs, isHexChar c = true := by
  intro c hc
  simp only [hexEncode, List.mem_flatMap, List.mem_cons, List.not_mem_nil,
    or_false] at hc
  obtain ⟨b, hb, hcb⟩ := hc
  have hb256 := hlt b hb
  rcases hcb with rfl | rfl
  · exact hexDigit_isHex (b / 16) (by omega)
  · exact hexDigit_isHex (b % 16) (by omega)

/-! ## `compute_transfer_hash` (C10) -/

/-- `TransferRequest` from `lib.rs` (the five-field struct that
`compute_transfer_hash` and `record_transfer` use). -/
structure TransferRequest where
  document_hash : List Char
  from_owner : List Char
  to_owner : List Char
  transfer_date : List Char
  transfer_reference : List Char
deriving DecidableEq, Repr

/-- `compute_transfer_hash` from `lib.rs`:
`hex(SHA-256(document_hash ‖ from_owner ‖ to_owner ‖ transfer_date))` —
`transfer_reference` is never hashed. -/
def compute_transfer_hash (req : TransferRequest) : List Char :=
  hexEncode (sha256 (utf8Encode req.document_hash ++ utf8Encode req.from_owner ++
    utf8Encode req.to_owner ++ utf8Encode req.transfer_date))

/-- C10: `compute_transfer_hash` is deterministic and depends only on
`document_hash`, `from_owner`, `to_owner` and `transfer_date`: requests
agreeing on those four fields hash identically even with different
`transfer_reference`s, and the output is always 64 lowercase hex
characters. -/
theorem compute_transfer_hash_core_fields (r1 r2 : TransferRequest)
    (h1 : r1.document_hash = r2.document_hash)
    (h2 : r1.from_owner = r2.from_owner)
    (h3 : r1.to_owner = r2.to_owner)
    (h4 : r1.transfer_date = r2.transfer_date) :
    compute_transfer_hash r1 = compute_transfer_hash r2 ∧
    (compute_transfer_hash r1).length = 64 ∧
    (∀ c ∈ compute_transfer_hash r1, isHexChar c = true) := by
  refine ⟨by rw [compute_transfer_hash, compute_transfer_hash, h1, h2, h3, h4], ?_, ?_⟩
  · rw [compute_transfer_hash, hexEncode_length, sha256_length]
  · exact hexEncode_chars_hex _ (sha256_bytes_lt _)

/-- Witness for C10: two requests differing only in
`transfer_reference`. -/
theorem compute_transfer_hash_core_fields_witness :
    compute_transfer_hash
        ⟨"doc123".data, "Alice".data, "Bob".data, "2025-01-01".data, "REF-1".data⟩ =
      compute_transfer_hash
        ⟨"doc123".data, "Alice".data, "Bob".data, "2025-01-01".data, "REF-2".data⟩ ∧
    (compute_transfer_hash
        ⟨"doc123".data, "Alice".data, "Bob".data, "2025-01-01".data, "REF-1".data⟩).length =
      64 ∧
    (∀ c ∈ compute_transfer_hash
        ⟨"doc123".data, "Alice".data, "Bob".data, "2025-01-01".data, "REF-1".data⟩,
      isHexChar c = true) :=
  compute_transfer_hash_core_fields
    ⟨"doc123".data, "Alice".data, "Bob".data, "2025-01-01".data, "REF-1".data⟩
    ⟨"doc123".data, "Alice".data, "Bob".data, "2025-01-01".data, "REF-2".data⟩
    rfl rfl rfl rfl

/-! ## Webhook HMAC signatures (C4)

`webhook_dispatcher.rs`: `sign` produces `"sha256=" + hex(HMAC-SHA256)`;
`verify_signature` strips the tag, hex-decodes, recomputes the MAC over
`(secret, body)` and compares.  The HMAC key processing (hash keys longer
than the 64-byte block, zero-pad shorter keys) follows `Hmac<Sha256>`; the
embedding is validated against the RFC 4231 test vector below. -/

/-- HMAC key normalization: hash overlong keys, zero-pad to the 64-byte
block. -/
def padKey (key : List Nat) : List Nat :=
  let k0 := if 64 < key.length then sha256 key else key
  k0 ++ List.replicate (64 - k0.length) 0

/-- HMAC-SHA256 over an already block-sized key. -/
def hmacCore (k msg : List Nat) : List Nat :=
  sha256 ((k.map (fun b => b ^^^ 0x5c)) ++ sha256 ((k.map (fun b => b ^^^ 0x36)) ++ msg))

/-- `Hmac::<Sha256>` with arbitrary key length. -/
def hmacSha256 (key msg : List Nat) : List Nat := hmacCore (padKey key) msg

set_option maxRecDepth 4000 in
/-- Validation: RFC 4231 test case 2 (key `"Jefe"`). -/
theorem hmac_test_vector :
    hmacSha256 [0x4a, 0x65, 0x66, 0x65]
      [0x77, 0x68, 0x61, 0x74, 0x20, 0x64, 0x6f, 0x20, 0x79, 0x61, 0x20, 0x77,
       0x61, 0x6e, 0x74, 0x20, 0x66, 0x6f, 0x72, 0x20, 0x6e, 0x6f, 0x74, 0x68,
       0x69, 0x6e, 0x67, 0x3f] =
      [0x5b, 0xdc, 0xc1, 0x46, 0xbf, 0x60, 0x75, 0x4e, 0x6a, 0x04, 0x24, 0x26,
       0x08, 0x95, 0x75, 0xc7, 0x5a, 0x00, 0x3f, 0x08, 0x9d, 0x27, 0x39, 0x83,
       0x9d, 0xec, 0x58, 0xb9, 0x64, 0xec, 0x38, 0x43] := by
  decide

/-- Every HMAC output byte is a genuine byte. -/
theorem hmacSha256_bytes_lt (key msg : List Nat) :
    ∀ b ∈ hmacSha256 key msg, b < 256 :=
  sha256_bytes_lt _

/-- `str::strip_prefix` as used on the `"sha256="` tag: `some` of the
remainder when the tag leads, else `none`. -/
def stripTag : List Char → List Char → Option (List Char)
  | [], l => some l
  | _ :: _, [] => none
  | t :: ts, c :: cs => if c = t then stripTag ts cs else none

/-- The `.strip_prefix("sha256=").unwrap_or(signature)` step. -/
def sigHexOf (signature : List Char) : List Char :=
  match stripTag "sha256=".data signature with
  | some rest => rest
  | none => signature

/-- `hex::decode` of one digit (upper- and lowercase accepted). -/
def hexDigitVal (c : Char) : Option Nat :=
  if 48 ≤ c.toNat ∧ c.toNat ≤ 57 then some (c.toNat - 48)
  else if 97 ≤ c.toNat ∧ c.toNat ≤ 102 then some (c.toNat - 87)
  else if 65 ≤ c.toNat ∧ c.toNat ≤ 70 then some (c.toNat - 55)
  else none

/-- `hex::decode`: pairs of digits, failing on odd length or a non-hex
character. -/
def hexDecode : List Char → Option (List Nat)
  | [] => some []
  | [_] => none
  | c1 :: c2 :: rest =>
    match hexDigitVal c1, hexDigitVal c2, hexDecode rest with
    | some hi, some lo, some bs => some ((hi * 16 + lo) :: bs)
    | _, _, _ => none

/-- `sign` from `webhook_dispatcher.rs`. -/
def sign (secret : List Char) (body : List Nat) : List Char :=
  "sha256=".data ++ hexEncode (hmacSha256 (utf8Encode secret) body)

/-- `verify_signature` from `webhook_dispatcher.rs`: strip the tag,
hex-decode, recompute the MAC and compare (the comparison is
constant-time in Rust; its value is plain equality). -/
def verify_signature (secret : List Char) (body : List Nat)
    (signature : List Char) : Bool :=
  match hexDecode (sigHexOf signature) with
  | none => false
  | some sig_bytes => hmacSha256 (utf8Encode secret) body == sig_bytes

/-- Stripping a tag it itself prefixed returns the remainder. -/
theorem stripTag_append :
    ∀ (t l : List Char), stripTag t (t ++ l) = some l := by
  intro t
  induction t with
  | nil => intro l; rfl
  | cons c cs ih =>
    intro l
    simp only [List.cons_append, stripTag, if_pos rfl]
    exact ih l

/-- Decoding inverts encoding digit-wise. -/
theorem hexDigitVal_hexDigit : ∀ n, n < 16 → hexDigitVal (hexDigit n) = some n := by
  decide

/-- Decoding inverts encoding on genuine byte strings. -/
theorem hexDecode_hexEncode :
    ∀ (bs : List Nat), (∀ b ∈ bs, b < 256) → hexDecode (hexEncode bs) = some bs := by
  intro bs
  induction bs with
  | nil => intro _; rfl
  | cons b rest ih =>
    intro hlt
    have hb := hlt b (List.mem_cons_self _ _)
    have hhi := hexDigitVal_hexDigit (b / 16) (by omega)
    have hlo := hexDigitVal_hexDigit (b % 16) (by omega)
    have hrest := ih (fun u hu => hlt u (List.mem_cons_of_mem _ hu))
    have hdm : b / 16 * 16 + b % 16 = b := by omega
    simp only [hexEncode, List.flatMap_cons] at *
    simp [hexDecode, hhi, hlo, hrest, hdm]

/-- What verification of a freshly produced signature computes: equality
of the recomputed and the original MAC. -/
theorem verify_of_sign (s' : List Char) (b' : List Nat) (s : List Char)
    (b : List Nat) :
    verify_signature s' b' (sign s b) =
      (hmacSha256 (utf8Encode s') b' == hmacSha256 (utf8Encode s) b) := by
  unfold verify_signature sign sigHexOf
  rw [stripTag_append,
    hexDecode_hexEncode _ (hmacSha256_bytes_lt (utf8Encode s) b)]

/-- C4 (amended): the round trip
`verify_signature(secret, body, sign(secret, body))` always holds, and
verifying a signature produced for `(secret, body)` against
`(secret', body')` succeeds exactly when the recomputed HMAC coincides
with the original — so a changed secret or body is rejected precisely
when it changes the MAC, and secrets that are zero-pad-equivalent for
HMAC (at most 64 bytes, differing only in trailing NUL bytes) accept each
other's signatures. -/
theorem verify_signature_roundtrip_and_iff (s : List Char) (b : List Nat)
    (s' : List Char) (b' : List Nat) :
    verify_signature s b (sign s b) = true ∧
    (verify_signature s' b' (sign s b) = true ↔
      hmacSha256 (utf8Encode s') b' = hmacSha256 (utf8Encode s) b) := by
  constructor
  · rw [verify_of_sign]
    exact beq_self_eq_true _
  · rw [verify_of_sign]
    exact beq_iff_eq
/-- Counterexample to C4 as stated: the secret `"abc\u{0}"` differs from
`"abc"`, yet `verify_signature("abc\u{0}", body, sign("abc", body))` is
true — HMAC zero-pads both keys to the same 64-byte block. -/
theorem verify_signature_distinct_secret_accepted :
    ("abc".data ++ [Char.ofNat 0] ≠ "abc".data) ∧
    verify_signature ("abc".data ++ [Char.ofNat 0]) [] (sign "abc".data []) = true := by
  constructor
  · decide
  · rw [verify_of_sign]
    have hpad : padKey (utf8Encode ("abc".data ++ [Char.ofNat 0])) =
        padKey (utf8Encode "abc".data) := by decide
    rw [hmacSha256, hmacSha256, hpad]
    exact beq_self_eq_true _

/-! ## Orchestrator cache-error handling (C5)

`verify_document` and `record_transfer` from `lib.rs`, with the external
effects (cache read, ledger call, cache write, `anchor_transfer`, the
`chrono` date parse and `Utc::now()`) passed in as oracle results.  Status
codes are the numeric codes (`400`, `500`); a validation rejection is the
`(BAD_REQUEST, message)` response body. -/

/-- `VerifyResponse` from `lib.rs`. -/
structure VerifyResponse where
  verified : Bool
  transaction_id : Option (List Char)
  timestamp : Option Int
  cached : Bool
deriving DecidableEq, Repr

/-- What `verify_document` can send (the `Ok` side of its handler
result): the 400 validation response with its error, a cached response
returned as stored, or a fresh response built from the ledger result. -/
inductive VerifyDocOutcome where
  | validationError (err : ValidationError)
  | cachedHit (resp : VerifyResponse)
  | fresh (resp : VerifyResponse)
deriving DecidableEq, Repr

/-- The cache-miss tail of `verify_document`: query Stellar (failure →
500), build the response, attempt the cache write — whose outcome is only
logged. -/
def verifyDocFetch (stellar : Except VerifyErr VerificationResult)
    (cacheWrite : Except (List Char) Unit) : Except Nat VerifyDocOutcome :=
  match stellar with
  | .error _ => .error 500
  | .ok result =>
    match cacheWrite with
    | .error _ =>
      .ok (.fresh ⟨result.verified, result.transaction_id, result.timestamp, false⟩)
    | .ok () =>
      .ok (.fresh ⟨result.verified, result.transaction_id, result.timestamp, false⟩)

/-- `verify_document` from `lib.rs`: normalize and validate the hash,
consult the cache (`if let Ok(Some(cached))` — an error falls through
like a miss), then fetch. -/
def verifyDocument (toLower : List Char → List Char) (document_hash : List Char)
    (cacheRead : Except (List Char) (Option VerifyResponse))
    (stellar : Except VerifyErr VerificationResult)
    (cacheWrite : Except (List Char) Unit) : Except Nat VerifyDocOutcome :=
  match validate_sha256 toLower (normalize toLower document_hash) with
  | .error err => .ok (.validationError err)
  | .ok () =>
    match cacheRead with
    | .ok (some cached) => .ok (.cachedHit cached)
    | .ok none => verifyDocFetch stellar cacheWrite
    | .error _ => verifyDocFetch stellar cacheWrite

/-- `TransferRecord` from `lib.rs`. -/
structure TransferRecord where
  document_hash : List Char
  from_owner : List Char
  to_owner : List Char
  transfer_date : List Char
  transfer_reference : List Char
  transfer_hash : List Char
  memo : List Char
  anchored_at : List Char
deriving DecidableEq, Repr

/-- `TransferResponse` from `lib.rs`. -/
structure TransferResponse where
  transfer_hash : List Char
  memo : List Char
deriving DecidableEq, Repr

/-- `build_transfer_memo` from `lib.rs`: `"TRANSFER:"` plus the hash
truncated to the 19 remaining bytes — again by a raw byte slice
(`none` = panic on a non-boundary; unreachable for the hex hash). -/
def buildTransferMemo (transfer_hash : List Char) : Option (List Char) :=
  let remaining := 28 - "TRANSFER:".data.length
  if byteLen transfer_hash > remaining then
    (byteSliceTo transfer_hash remaining).map (fun t => "TRANSFER:".data ++ t)
  else
    some ("TRANSFER:".data ++ transfer_hash)

/-- `record_transfer` from `lib.rs`: validate the date (`chrono` parse as
an oracle `dateOk`), compute the transfer hash and memo, anchor on
Stellar (failure → 500), read the history from the cache (failure →
500), append, and write it back (failure → 500).  The outer `Option` is
a panic. -/
def record_transfer (dateOk : List Char → Bool) (req : TransferRequest)
    (anchor : Except (List Char) Unit)
    (cacheRead : Except (List Char) (Option (List TransferRecord)))
    (cacheWrite : List TransferRecord → Except (List Char) Unit)
    (now_rfc3339 : List Char) : Option (Except Nat TransferResponse) :=
  if ¬ dateOk req.transfer_date then some (.error 400)
  else
    match buildTransferMemo (compute_transfer_hash req) with
    | none => none
    | some memo =>
      match anchor with
      | .error _ => some (.error 500)
      | .ok () =>
        match cacheRead with
        | .error _ => some (.error 500)
        | .ok existing =>
          match cacheWrite (existing.getD [] ++
            [⟨req.document_hash, req.from_owner, req.to_owner, req.transfer_date,
              req.transfer_reference, compute_transfer_hash req, memo,
              now_rfc3339⟩]) with
          | .error _ => some (.error 500)
          | .ok () => some (.ok ⟨compute_transfer_hash req, memo⟩)

/-- Slicing an ASCII string at an in-range offset succeeds and takes that
many characters. -/
theorem byteSliceTo_ascii :
    ∀ (l : List Char) (n : Nat), (∀ c ∈ l, utf8Len c = 1) → n ≤ l.length →
      byteSliceTo l n = some (l.take n) := by
  intro l
  induction l with
  | nil =>
    intro n _ hn
    have : n = 0 := by simpa using hn
    subst this
    rfl
  | cons c rest ih =>
    intro n hall hn
    cases n with
    | zero => rfl
    | succ m =>
      have hc : utf8Len c = 1 := hall c (List.mem_cons_self _ _)
      simp only [byteSliceTo, hc, if_pos (by omega : 1 ≤ m + 1), Nat.add_sub_cancel]
      rw [ih m (fun u hu => hall u (List.mem_cons_of_mem _ hu))
        (by simpa using Nat.le_of_succ_le_succ hn)]
      simp

/-- On a transfer hash the memo truncation never panics: the hex output
is 64 one-byte characters, so the slice at byte 19 is a clean prefix. -/
theorem buildTransferMemo_of_hash (req : TransferRequest) :
    buildTransferMemo (compute_transfer_hash req) =
      some ("TRANSFER:".data ++ (compute_transfer_hash req).take 19) := by
  have hhex : ∀ c ∈ compute_transfer_hash req, isHexChar c = true :=
    hexEncode_chars_hex _ (sha256_bytes_lt _)
  have hlen : (compute_transfer_hash req).length = 64 := by
    rw [compute_transfer_hash, hexEncode_length, sha256_length]
  have hbl : byteLen (compute_transfer_hash req) = 64 := by
    rw [byteLen_of_hex _ hhex, hlen]
  have hascii : ∀ c ∈ compute_transfer_hash req, utf8Len c = 1 :=
    fun c hc => utf8Len_of_hex c (hhex c hc)
  simp only [buildTransferMemo]
  rw [if_pos (by simp [hbl]),
    byteSliceTo_ascii _ _ hascii (by rw [hlen]; norm_num)]
  rfl

/-- In `verify_document` a cache read error takes exactly the cache-miss
path. -/
theorem verifyDocument_read_error_is_miss (toLower : List Char → List Char)
    (h : List Char) (e : List Char)
    (st : Except VerifyErr VerificationResult) (w : Except (List Char) Unit) :
    verifyDocument toLower h (.error e) st w =
      verifyDocument toLower h (.ok none) st w := by
  cases hv : validate_sha256 toLower (normalize toLower h) with
  | error err => simp [verifyDocument, hv]
  | ok u => cases u; simp [verifyDocument, hv]

/-- In `verify_document` the cache write outcome never changes the
result. -/
theorem verifyDocument_write_error_ignored (toLower : List Char → List Char)
    (h : List Char)
    (r : Except (List Char) (Option VerifyResponse))
    (st : Except VerifyErr VerificationResult)
    (w w' : Except (List Char) Unit) :
    verifyDocument toLower h r st w = verifyDocument toLower h r st w' := by
  have hfetch : verifyDocFetch st w = verifyDocFetch st w' := by
    cases st with
    | error e => rfl
    | ok result =>
      cases w with
      | error e => cases w' with
        | error e' => rfl
        | ok u => cases u; rfl
      | ok u => cases u; cases w' with
        | error e' => rfl
        | ok u' => cases u'; rfl
  cases hv : validate_sha256 toLower (normalize toLower h) with
  | error err => simp [verifyDocument, hv]
  | ok u =>
    cases u
    cases r with
    | error e => simp [verifyDocument, hv, hfetch]
    | ok o => cases o with
      | none => simp [verifyDocument, hv, hfetch]
      | some cached => simp [verifyDocument, hv]

/-- In `record_transfer` a cache read error fails the request with 500. -/
theorem record_transfer_read_error (dateOk : List Char → Bool)
    (req : TransferRequest) (hdate : dateOk req.transfer_date = true)
    (e : List Char) (w : List TransferRecord → Except (List Char) Unit)
    (now : List Char) :
    record_transfer dateOk req (.ok ()) (.error e) w now = some (.error 500) := by
  unfold record_transfer
  rw [if_neg (not_not_intro hdate), buildTransferMemo_of_hash]

/-- In `record_transfer` a cache write error fails the request with
500. -/
theorem record_transfer_write_error (dateOk : List Char → Bool)
    (req : TransferRequest) (hdate : dateOk req.transfer_date = true)
    (ex : Option (List TransferRecord)) (e : List Char) (now : List Char) :
    record_transfer dateOk req (.ok ()) (.ok ex) (fun _ => .error e) now =
      some (.error 500) := by
  unfold record_transfer
  rw [if_neg (not_not_intro hdate), buildTransferMemo_of_hash]

/-- The all-success path of `record_transfer`, for contrast with the
error paths. -/
theorem record_transfer_success (dateOk : List Char → Bool)
    (req : TransferRequest) (hdate : dateOk req.transfer_date = true)
    (ex : Option (List TransferRecord)) (now : List Char) :
    record_transfer dateOk req (.ok ()) (.ok ex) (fun _ => .ok ()) now =
      some (.ok ⟨compute_transfer_hash req,
        "TRANSFER:".data ++ (compute_transfer_hash req).take 19⟩) := by
  unfold record_transfer
  rw [if_neg (not_not_intro hdate), buildTransferMemo_of_hash]

/-- C5 (amended): in `verify_document` a cache read error is treated as a
miss (the handler proceeds to the ledger) and a cache write error never
changes the result; but in `record_transfer` both a cache read error and
a cache write error fail the whole request with 500. -/
theorem cache_error_handling (toLower : List Char → List Char)
    (h : List Char) (e : List Char)
    (st : Except VerifyErr VerificationResult)
    (r : Except (List Char) (Option VerifyResponse))
    (w w' : Except (List Char) Unit)
    (dateOk : List Char → Bool) (req : TransferRequest)
    (hdate : dateOk req.transfer_date = true)
    (ex : Option (List TransferRecord)) (e' : List Char)
    (w2 : List TransferRecord → Except (List Char) Unit) (now : List Char) :
    verifyDocument toLower h (.error e) st w =
      verifyDocument toLower h (.ok none) st w ∧
    verifyDocument toLower h r st w = verifyDocument toLower h r st w' ∧
    record_transfer dateOk req (.ok ()) (.error e') w2 now = some (.error 500) ∧
    record_transfer dateOk req (.ok ()) (.ok ex) (fun _ => .error e') now =
      some (.error 500) :=
  ⟨verifyDocument_read_error_is_miss toLower h e st w,
    verifyDocument_write_error_ignored toLower h r st w w',
    record_transfer_read_error dateOk req hdate e' w2 now,
    record_transfer_write_error dateOk req hdate ex e' now⟩

/-- Witness for the amended C5 at concrete oracle values. -/
theorem cache_error_handling_witness :
    verifyDocument asciiToLower "ff".data (.error "down".data)
        (.ok ⟨true, none, none⟩) (.ok ()) =
      verifyDocument asciiToLower "ff".data (.ok none)
        (.ok ⟨true, none, none⟩) (.ok ()) ∧
    verifyDocument asciiToLower "ff".data (.ok none)
        (.ok ⟨true, none, none⟩) (.ok ()) =
      verifyDocument asciiToLower "ff".data (.ok none)
        (.ok ⟨true, none, none⟩) (.error "down".data) ∧
    record_transfer (fun _ => true)
        ⟨"doc".data, "A".data, "B".data, "2025-01-01".data, "R".data⟩
        (.ok ()) (.error "down".data) (fun _ => .ok ()) "now".data =
      some (.error 500) ∧
    record_transfer (fun _ => true)
        ⟨"doc".data, "A".data, "B".data, "2025-01-01".data, "R".data⟩
        (.ok ()) (.ok none) (fun _ => .error "down".data) "now".data =
      some (.error 500) :=
  cache_error_handling asciiToLower "ff".data "down".data
    (.ok ⟨true, none, none⟩)
    (.ok none) (.ok ()) (.error "down".data) (fun _ => true)
    ⟨"doc".data, "A".data, "B".data, "2025-01-01".data, "R".data⟩ rfl
    none "down".data (fun _ => .ok ()) "now".data

/-- Counterexample to C5 as stated: on this concrete request a cache read
error makes `record_transfer` fail with 500, while the same request with
a cache miss succeeds — the read error is not treated as a miss on the
`record_transfer` path. -/
theorem record_transfer_read_error_not_miss :
    record_transfer (fun _ => true)
        ⟨"d1".data, "Alice".data, "Bob".data, "2025-02-03".data, "X".data⟩
        (.ok ()) (.error "redis down".data) (fun _ => .ok ()) "t0".data =
      some (.error 500) ∧
    record_transfer (fun _ => true)
        ⟨"d1".data, "Alice".data, "Bob".data, "2025-02-03".data, "X".data⟩
        (.ok ()) (.ok none) (fun _ => .ok ()) "t0".data ≠ some (.error 500) := by
  constructor
  · exact record_transfer_read_error (fun _ => true) _ rfl _ _ _
  · rw [record_transfer_success (fun _ => true) _ rfl none _]
    simp

end SMALDA
